import Mathlib

/-!
Verification development for the `concat` authority-deduplication pipeline.

The definitions below are shallow embeddings of the Python functions in
`auth_normalize_table.py`, `modules/homoglyph.py` and `auth_deduplication.py`.
Strings are modelled as Lean `String`/`List Char`; Python regular expressions
are embedded as executable character-list matchers; the third-party routines
the code calls (`jellyfish.soundex`, `transliterate.translit`, splink's
connected-component clustering, pandas group/sort/dedup operations) are
embedded from their documented algorithms, restricted where noted to the
character repertoire this code base exercises.
-/

namespace Concat

/-! ### Python string primitives -/

/-- The whitespace characters recognised by Python's `str.strip()` and by the
regex class `\s` on `str` patterns: ASCII whitespace, the control characters
U+001C–U+001F, NEL, NBSP and the Unicode space/line/paragraph separators. -/
def pySpace (c : Char) : Bool :=
  c ∈ [' ', '\t', '\n', '\r', '\x0b', '\x0c',
       '\x1c', '\x1d', '\x1e', '\x1f', '\x85', '\xa0',
       Char.ofNat 0x1680, Char.ofNat 0x2000, Char.ofNat 0x2001, Char.ofNat 0x2002,
       Char.ofNat 0x2003, Char.ofNat 0x2004, Char.ofNat 0x2005, Char.ofNat 0x2006,
       Char.ofNat 0x2007, Char.ofNat 0x2008, Char.ofNat 0x2009, Char.ofNat 0x200a,
       Char.ofNat 0x2028, Char.ofNat 0x2029, Char.ofNat 0x202f, Char.ofNat 0x205f,
       Char.ofNat 0x3000]

/-- Python `str.strip()` on a character list: drop leading whitespace, then
trailing whitespace. -/
def pyStripList (l : List Char) : List Char :=
  List.rdropWhile pySpace (l.dropWhile pySpace)

/-- The character class `[\x00-\x1F\x7F]` of the control-character removal
step in `clean_text`. -/
def isCtl (c : Char) : Bool :=
  c.toNat ≤ 0x1f || c.toNat == 0x7f

/-- Python `str.upper()` restricted to ASCII (the only case mapping the
properties proved here depend on; non-ASCII characters pass through). -/
def pyUpperCh (c : Char) : Char := c.toUpper

/-! ### `auth_normalize_table.clean_text` -/

/-- `superscript_map = str.maketrans("⁰¹²³⁴⁵⁶⁷⁸⁹", "0123456789")`. -/
def superscriptTable : List (Char × Char) :=
  [(Char.ofNat 0x2070, '0'), (Char.ofNat 0xb9, '1'), (Char.ofNat 0xb2, '2'),
   (Char.ofNat 0xb3, '3'), (Char.ofNat 0x2074, '4'), (Char.ofNat 0x2075, '5'),
   (Char.ofNat 0x2076, '6'), (Char.ofNat 0x2077, '7'), (Char.ofNat 0x2078, '8'),
   (Char.ofNat 0x2079, '9')]

/-- `subscript_map = str.maketrans("₀₁₂₃₄₅₆₇₈₉", "0123456789")`. -/
def subscriptTable : List (Char × Char) :=
  [(Char.ofNat 0x2080, '0'), (Char.ofNat 0x2081, '1'), (Char.ofNat 0x2082, '2'),
   (Char.ofNat 0x2083, '3'), (Char.ofNat 0x2084, '4'), (Char.ofNat 0x2085, '5'),
   (Char.ofNat 0x2086, '6'), (Char.ofNat 0x2087, '7'), (Char.ofNat 0x2088, '8'),
   (Char.ofNat 0x2089, '9')]

def superscriptTr (c : Char) : Char := (superscriptTable.lookup c).getD c

def subscriptTr (c : Char) : Char := (subscriptTable.lookup c).getD c

/-- The `char_conversion` mapping dictionary (codepoints taken verbatim from
the source; a mapping to `[]` is a removed symbol). -/
def charConvTable : List (Char × List Char) :=
  [(Char.ofNat 0xc6, ['A', 'E']), (Char.ofNat 0xe6, ['a', 'e']),
   (Char.ofNat 0x152, ['O', 'E']), (Char.ofNat 0x153, ['o', 'e']),
   (Char.ofNat 0x110, ['D']), (Char.ofNat 0x111, ['d']),
   (Char.ofNat 0xd0, ['D']), (Char.ofNat 0xf0, ['d']),
   (Char.ofNat 0x131, ['i']),
   (Char.ofNat 0x1a0, ['O']), (Char.ofNat 0x1a1, ['o']),
   (Char.ofNat 0x1af, ['U']), (Char.ofNat 0x1b0, ['u']),
   (Char.ofNat 0xd8, ['O']), (Char.ofNat 0xf8, ['o']),
   (Char.ofNat 0xde, ['T', 'H']), (Char.ofNat 0xfe, ['t', 'h']),
   (Char.ofNat 0xdf, ['S', 'S']),
   (Char.ofNat 0xa9, []), (Char.ofNat 0x2117, []), (Char.ofNat 0xae, []),
   (Char.ofNat 0x2122, []), (Char.ofNat 0xb0, []), (Char.ofNat 0xb1, []),
   (Char.ofNat 0x2030, [])]

def char_conversion (c : Char) : List Char := (charConvTable.lookup c).getD [c]

/-- `chars_to_delete = set("ʾʿ·")`. -/
def chars_to_delete : List Char := [Char.ofNat 0x2be, Char.ofNat 0x2bf, Char.ofNat 0xb7]

/-- The `punctuation_rules` dictionary (codepoints verbatim from the source). -/
def punctTable : List (Char × List Char) :=
  [('!', [' ']), ('\"', [' ']), (Char.ofNat 0x27, []), ('(', [' ']), (')', [' ']),
   ('-', ['-']), ('[', []), (']', []), (Char.ofNat 0x7b, [' ']), (Char.ofNat 0x7d, [' ']),
   ('<', [' ']), ('>', [' ']), (';', [' ']), (':', [' ']), ('.', ['.']),
   ('?', [' ']), (Char.ofNat 0xbf, [' ']), (Char.ofNat 0xa1, [' ']), (',', [' ']),
   ('/', [' ']), ('\\', [' ']), ('@', ['@']), ('&', ['&']), ('*', [' ']),
   ('|', [' ']), ('%', [' ']), ('=', [' ']), ('+', ['+']),
   (Char.ofNat 0x2212, ['-']), (Char.ofNat 0x2124, [' ']),
   (Char.ofNat 0xd7, ['x']), (Char.ofNat 0xf7, ['/']),
   (Char.ofNat 0x2018, [' ']), (Char.ofNat 0x2019, [' ']), (Char.ofNat 0x201b, [' ']),
   (Char.ofNat 0x201c, [' ']), (Char.ofNat 0x201d, [' ']), (Char.ofNat 0x201e, [' ']),
   (Char.ofNat 0x2027, [' ']), (Char.ofNat 0xb7, [' '])]

def punctuation_rules (c : Char) : List Char := (punctTable.lookup c).getD [c]

/-- `re.sub(r"\s+", " ", text)`: collapse every maximal run of whitespace to a
single ASCII space. -/
def collapseWs : List Char → List Char
  | [] => []
  | [c] => if pySpace c then [' '] else [c]
  | c :: d :: rest =>
    if pySpace c then
      if pySpace d then collapseWs (d :: rest)
      else ' ' :: collapseWs (d :: rest)
    else c :: collapseWs (d :: rest)

/-- The character-level stages of `clean_text`: superscript and subscript
translation, `char_conversion`, deletion of `chars_to_delete`,
`punctuation_rules`. -/
def charStages (l : List Char) : List Char :=
  ((((l.map superscriptTr).map subscriptTr).flatMap char_conversion).filter
    (fun c => !(chars_to_delete.contains c))).flatMap punctuation_rules

/-- The pipeline of `clean_text` after its blank guard: the character stages,
then whitespace collapsing + strip, then control-char removal. -/
def cleanList (l : List Char) : List Char :=
  (pyStripList (collapseWs (charStages l))).filter (fun c => !(isCtl c))

/-- `clean_text` from `auth_normalize_table.py`. Non-string input is outside
the model; blank input returns the empty string as in the source. -/
def clean_text (s : String) : String :=
  if pyStripList s.data = [] then "" else ⟨cleanList s.data⟩

/-! ### `normalize_dates` -/

/-- The character class kept by `re.sub(r"[^0-9\-?]", "", date_text)`. -/
def dateKeep (c : Char) : Bool := c.isDigit || c == '-' || c == '?'

def isFourDigits : List Char → Bool
  | [a, b, c, d] => a.isDigit && b.isDigit && c.isDigit && d.isDigit
  | _ => false

/-- `re.match(r"^\d{4}(-\d{4})?$", t)`. -/
def matchPlainOrRange (l : List Char) : Bool :=
  isFourDigits l ||
    (l.length == 9 && isFourDigits (l.take 4) && l.get? 4 == some '-' &&
      isFourDigits (l.drop 5))

/-- `re.match(r"^\d{4}-?$", t)`. -/
def matchOpenRange (l : List Char) : Bool :=
  isFourDigits l || (l.length == 5 && isFourDigits (l.take 4) && l.get? 4 == some '-')

/-- `re.match(r"^\d{4}\?$", t)`. -/
def matchUncertain (l : List Char) : Bool :=
  l.length == 5 && isFourDigits (l.take 4) && l.get? 4 == some '?'

/-- `normalize_dates` from `auth_normalize_table.py`. -/
def normalize_dates (s : String) : String :=
  if pyStripList s.data = [] then ""
  else
    let t := s.data.filter dateKeep
    if matchPlainOrRange t then ⟨t⟩
    else if matchOpenRange t then ⟨t⟩
    else if matchUncertain t then ⟨t.dropLast⟩
    else ""

/-! ### `normalize_isni` -/

/-- The character class kept by `re.sub(r"[^\dXx]", "", isni)`; `\d` is
modelled by ASCII decimal digits. -/
def isniKeep (c : Char) : Bool := c.isDigit || c == 'X' || c == 'x'

/-- `is_valid_isni`: `re.match(r'^\d{15}[\dX]$', isni)`. -/
def is_valid_isni (l : List Char) : Bool :=
  l.length == 16 && (l.take 15).all Char.isDigit &&
    ((l.get? 15).elim false (fun c => c.isDigit || c == 'X'))

/-- `normalize_isni` from `auth_normalize_table.py`. -/
def normalize_isni (s : String) : String :=
  if s = "" then ""
  else
    let t := s.data.filter isniKeep
    if is_valid_isni t then ⟨t⟩ else ""

/-! ### `modules/homoglyph.py` -/

/-- `cyrillic_chars = set('ІіАаВЕеКМНОоРрСсТуХх')` (codepoints verbatim). -/
def cyrillic_chars : List Char :=
  [Char.ofNat 0x406, Char.ofNat 0x456, Char.ofNat 0x410, Char.ofNat 0x430,
   Char.ofNat 0x412, Char.ofNat 0x415, Char.ofNat 0x435, Char.ofNat 0x41a,
   Char.ofNat 0x41c, Char.ofNat 0x41d, Char.ofNat 0x41e, Char.ofNat 0x43e,
   Char.ofNat 0x420, Char.ofNat 0x440, Char.ofNat 0x421, Char.ofNat 0x441,
   Char.ofNat 0x422, Char.ofNat 0x443, Char.ofNat 0x425, Char.ofNat 0x445]

/-- `latin_chars = set('IiAaBEeKMHOoPpCcTyXx')`. -/
def latin_chars : List Char :=
  ['I', 'i', 'A', 'a', 'B', 'E', 'e', 'K', 'M', 'H', 'O', 'o', 'P', 'p',
   'C', 'c', 'T', 'y', 'X', 'x']

/-- `full_cyrillic` (codepoints verbatim from the source, including its
duplicated Фф pair). -/
def full_cyrillic : List Char :=
  [Char.ofNat 0x410, Char.ofNat 0x430, Char.ofNat 0x411, Char.ofNat 0x431,
   Char.ofNat 0x412, Char.ofNat 0x432, Char.ofNat 0x413, Char.ofNat 0x433,
   Char.ofNat 0x414, Char.ofNat 0x434, Char.ofNat 0x415, Char.ofNat 0x435,
   Char.ofNat 0x404, Char.ofNat 0x454, Char.ofNat 0x416, Char.ofNat 0x436,
   Char.ofNat 0x417, Char.ofNat 0x437, Char.ofNat 0x406, Char.ofNat 0x456,
   Char.ofNat 0x42b, Char.ofNat 0x44b, Char.ofNat 0x418, Char.ofNat 0x438,
   Char.ofNat 0x424, Char.ofNat 0x444, Char.ofNat 0x419, Char.ofNat 0x439,
   Char.ofNat 0x41a, Char.ofNat 0x43a, Char.ofNat 0x41b, Char.ofNat 0x43b,
   Char.ofNat 0x41c, Char.ofNat 0x43c, Char.ofNat 0x41d, Char.ofNat 0x43d,
   Char.ofNat 0x41e, Char.ofNat 0x43e, Char.ofNat 0x41f, Char.ofNat 0x43f,
   Char.ofNat 0x420, Char.ofNat 0x440, Char.ofNat 0x421, Char.ofNat 0x441,
   Char.ofNat 0x422, Char.ofNat 0x442, Char.ofNat 0x423, Char.ofNat 0x443,
   Char.ofNat 0x424, Char.ofNat 0x444, Char.ofNat 0x425, Char.ofNat 0x445,
   Char.ofNat 0x426, Char.ofNat 0x446, Char.ofNat 0x427, Char.ofNat 0x447,
   Char.ofNat 0x428, Char.ofNat 0x448, Char.ofNat 0x429, Char.ofNat 0x449,
   Char.ofNat 0x42d, Char.ofNat 0x44d, Char.ofNat 0x42e, Char.ofNat 0x44e,
   Char.ofNat 0x42f, Char.ofNat 0x44f, Char.ofNat 0x407, Char.ofNat 0x457,
   Char.ofNat 0x42c, Char.ofNat 0x44c]

/-- `full_latin = set('Aa...Zz')`. -/
def full_latin : List Char :=
  ['A', 'a', 'B', 'b', 'C', 'c', 'D', 'd', 'E', 'e', 'F', 'f', 'G', 'g',
   'H', 'h', 'I', 'i', 'J', 'j', 'K', 'k', 'L', 'l', 'M', 'm', 'N', 'n',
   'O', 'o', 'P', 'p', 'Q', 'q', 'R', 'r', 'S', 's', 'T', 't', 'U', 'u',
   'V', 'v', 'W', 'w', 'X', 'x', 'Y', 'y', 'Z', 'z']

/-- `roman_numerals = set('CDMXLVI')` — these are ASCII Latin letters. -/
def roman_numerals : List Char := ['C', 'D', 'M', 'X', 'L', 'V', 'I']

/-- `special_cyrillic = full_cyrillic.difference(cyrillic_chars)`. -/
def special_cyrillic : List Char :=
  full_cyrillic.filter (fun c => !(cyrillic_chars.contains c))

/-- `special_latin = full_latin.difference(latin_chars)`. -/
def special_latin : List Char :=
  full_latin.filter (fun c => !(latin_chars.contains c))

/-- `is_valid_alphabet_mix` on the character list of a word: true unless the
word contains characters from both `full_cyrillic` and `full_latin`. -/
def is_valid_alphabet_mix (w : List Char) : Bool :=
  !(w.any (full_cyrillic.contains ·) && w.any (full_latin.contains ·))

/-- The homoglyph pairing of `convert_to_latin`/`convert_to_cyrillic`:
`str.maketrans('ІіАаВЕеКМНОоРрСсТуХх', 'IiAaBEeKMHOoPpCcTyXx')`, position by
position. -/
def homoglyphPairs : List (Char × Char) := cyrillic_chars.zip latin_chars

def convert_to_latin_char (c : Char) : Char := (homoglyphPairs.lookup c).getD c

def convert_to_cyrillic_char (c : Char) : Char :=
  ((homoglyphPairs.map (fun p => (p.2, p.1))).lookup c).getD c

/-- `convert_to_latin` from `modules/homoglyph.py`. -/
def convert_to_latin (s : String) : String := ⟨s.data.map convert_to_latin_char⟩

/-- `convert_to_cyrillic` from `modules/homoglyph.py`. -/
def convert_to_cyrillic (s : String) : String := ⟨s.data.map convert_to_cyrillic_char⟩

/-- Python regex `\w` (a word character), restricted to the repertoire this
code processes: ASCII alphanumerics, underscore, and the Cyrillic block
U+0400–U+04FF. -/
def pyWordChar (c : Char) : Bool :=
  c.isAlphanum || c == '_' || (0x400 ≤ c.toNat && c.toNat ≤ 0x4ff)

/-- One step of `word_pattern.findall` with
`word_pattern = re.compile(r"(\w[\w\x27]*\w|\w)")`: at a word character the
first alternative greedily takes word characters and apostrophes and
backtracks so the match ends on a word character; otherwise the single
`\w` matches alone. -/
def findWordsAux : Nat → List Char → List (List Char)
  | 0, _ => []
  | _, [] => []
  | fuel + 1, c :: rest =>
    if pyWordChar c then
      let run := rest.takeWhile (fun d => pyWordChar d || d == Char.ofNat 0x27)
      let q := (run.reverse.dropWhile (fun d => !(pyWordChar d))).reverse
      if q = [] then [c] :: findWordsAux fuel rest
      else (c :: q) :: findWordsAux fuel (rest.drop q.length)
    else findWordsAux fuel rest

def findWords (l : List Char) : List (List Char) := findWordsAux l.length l

/-- Possible rests after consuming between 0 and `n` copies of `c` (the
regex piece `c{0,n}`), nondeterministically. -/
def repUpTo : Char → Nat → List Char → List (List Char)
  | _, 0, l => [l]
  | c, n + 1, l =>
    l :: (match l with
          | d :: rest => if d == c then repUpTo c n rest else []
          | [] => [])

/-- Rests after the optional single character `c?`. -/
def optChar (c : Char) (l : List Char) : List (List Char) :=
  l :: (match l with
        | d :: rest => if d == c then [rest] else []
        | [] => [])

/-- Rests after `(?:CM|CD|D?C{0,3})`. -/
def romHundreds (l : List Char) : List (List Char) :=
  (match l with
   | 'C' :: 'M' :: r => [r]
   | _ => []) ++
  (match l with
   | 'C' :: 'D' :: r => [r]
   | _ => []) ++
  (optChar 'D' l).flatMap (repUpTo 'C' 3)

/-- Rests after `(?:XC|XL|L?X{0,3})`. -/
def romTens (l : List Char) : List (List Char) :=
  (match l with
   | 'X' :: 'C' :: r => [r]
   | _ => []) ++
  (match l with
   | 'X' :: 'L' :: r => [r]
   | _ => []) ++
  (optChar 'L' l).flatMap (repUpTo 'X' 3)

/-- Rests after `(?:IX|IV|V?I{0,3})`. -/
def romUnits (l : List Char) : List (List Char) :=
  (match l with
   | 'I' :: 'X' :: r => [r]
   | _ => []) ++
  (match l with
   | 'I' :: 'V' :: r => [r]
   | _ => []) ++
  (optChar 'V' l).flatMap (repUpTo 'I' 3)

/-- Rests after one iteration of the Roman-numeral group
`(?:M{0,4})(?:CM|CD|D?C{0,3})(?:XC|XL|L?X{0,3})(?:IX|IV|V?I{0,3})`. -/
def romChunk (l : List Char) : List (List Char) :=
  ((repUpTo 'M' 4 l).flatMap romHundreds).flatMap (fun r =>
    (romTens r).flatMap romUnits)

/-- The `(...)+` repetition of the Roman-numeral group: the list is consumed
by one or more iterations (an iteration that consumes nothing ends the
repetition, as in Python's `re`). -/
def romPlus : Nat → List Char → Bool
  | 0, _ => false
  | fuel + 1, l =>
    (romChunk l).any (fun r =>
      r.isEmpty || (decide (r.length < l.length) && romPlus fuel r))

/-- `re.fullmatch(r'(\W|\b)((?:M{0,4})...)+(\b)', w)`: the leading
alternative consumes one non-word character or matches the empty boundary
before a word character; the trailing `\b` requires the string to end on a
word character. -/
def romanNumeralFullmatch (l : List Char) : Bool :=
  match l.getLast? with
  | none => false
  | some last =>
    pyWordChar last &&
      (match l with
       | [] => false
       | c :: rest =>
         if pyWordChar c then romPlus (l.length + 1) l
         else romPlus (rest.length + 1) rest)

/-- `highlight_mismatched_chars` from `modules/homoglyph.py`. -/
def highlight_mismatched_chars (w : List Char) : List Char :=
  w.flatMap (fun c =>
    (if latin_chars.contains c then '<' :: 'f' :: '>' :: c :: '<' :: '/' :: 'f' :: '>' :: [] else []) ++
    (if cyrillic_chars.contains c then '<' :: 'u' :: '>' :: c :: '<' :: '/' :: 'u' :: '>' :: [] else []))

/-- Python `text.replace(old, new, 1)` for non-empty `old`. -/
def replaceFirst : Nat → List Char → List Char → List Char → List Char
  | 0, t, _, _ => t
  | fuel + 1, t, old, new =>
    if old.isPrefixOf t then new ++ t.drop old.length
    else
      match t with
      | [] => []
      | c :: rest => c :: replaceFirst fuel rest old new

/-- The loop body of `fix_homoglyph_errors` for one word found in the text:
the three conversion cases guarded by the mixed-alphabet test. -/
def fixWordStep (text : List Char) (w : List Char) : List Char :=
  if !(is_valid_alphabet_mix w) then
    if w.all (roman_numerals.contains ·) &&
        romanNumeralFullmatch (w.map convert_to_latin_char) then
      replaceFirst text.length text w (w.map convert_to_latin_char)
    else if w.any (special_cyrillic.contains ·) && w.any (latin_chars.contains ·) &&
        !(w.any (special_latin.contains ·)) then
      replaceFirst text.length text w (w.map convert_to_cyrillic_char)
    else if w.any (special_latin.contains ·) && w.any (cyrillic_chars.contains ·) &&
        !(w.any (special_cyrillic.contains ·)) then
      let t2 := replaceFirst text.length text w (w.map convert_to_latin_char)
      let nLat := (w.filter (latin_chars.contains ·)).length
      let nCyr := (w.filter (cyrillic_chars.contains ·)).length
      if nCyr < nLat then replaceFirst t2.length t2 w (highlight_mismatched_chars w)
      else t2
    else text
  else text

/-- `fix_homoglyph_errors` from `modules/homoglyph.py`: find the words of the
text, then fold the per-word fixing step over the (possibly already
rewritten) text. -/
def fix_homoglyph_errors (s : String) : String :=
  ⟨(findWords s.data).foldl fixWordStep s.data⟩

/-! ### `auth_deduplication.py`: blocking keys -/

/-- The digit classes of American Soundex as implemented by
`jellyfish.soundex` (vowels and other letters carry no code). -/
def sdxCode (c : Char) : Option Char :=
  if c ∈ ['B', 'F', 'P', 'V'] then some '1'
  else if c ∈ ['C', 'G', 'J', 'K', 'Q', 'S', 'X', 'Z'] then some '2'
  else if c ∈ ['D', 'T'] then some '3'
  else if c = 'L' then some '4'
  else if c ∈ ['M', 'N'] then some '5'
  else if c = 'R' then some '6'
  else none

/-- The digit-emitting loop of `jellyfish.soundex` over the tail of the
(uppercased) string: a letter's class digit is appended when it differs from
the previous class; `H` and `W` leave the previous class in place; any other
uncoded letter resets it; the loop stops after three digits. -/
def sdxLoop : List Char → Option Char → Nat → List Char
  | [], _, _ => []
  | _, _, 0 => []
  | c :: rest, last, n + 1 =>
    match sdxCode c with
    | some d =>
      if some d = last then sdxLoop rest (some d) (n + 1)
      else d :: sdxLoop rest (some d) n
    | none =>
      if c = 'H' ∨ c = 'W' then sdxLoop rest last (n + 1)
      else sdxLoop rest none (n + 1)

/-- Embedding of `jellyfish.soundex`: first letter kept (uppercased), then up
to three class digits, zero-padded to four characters. The NFKD normalization
jellyfish performs first is the identity on the ASCII strings this pipeline
feeds to it, and the Python `str.upper()` is modelled on ASCII. -/
def soundex (s : String) : String :=
  match s.data with
  | [] => ""
  | c :: rest =>
    let u := pyUpperCh c
    let digits := sdxLoop (rest.map pyUpperCh) (sdxCode u) 3
    ⟨u :: (digits ++ List.replicate (3 - digits.length) '0')⟩

/-- Embedding of `transliterate.translit(text, lc, reversed=True)` for the
Ukrainian/Russian/Bulgarian packs, restricted to the Cyrillic letters this
development exercises (the packs agree on these): each listed Cyrillic letter
maps to its Latin romanization, all other characters pass through. -/
def translitRevTable : List (Char × List Char) :=
  [(Char.ofNat 0x428, ['S', 'h']), (Char.ofNat 0x448, ['s', 'h']),
   (Char.ofNat 0x427, ['C', 'h']), (Char.ofNat 0x447, ['c', 'h']),
   (Char.ofNat 0x415, ['E']), (Char.ofNat 0x435, ['e']),
   (Char.ofNat 0x412, ['V']), (Char.ofNat 0x432, ['v']),
   (Char.ofNat 0x41d, ['N']), (Char.ofNat 0x43d, ['n']),
   (Char.ofNat 0x41a, ['K']), (Char.ofNat 0x43a, ['k']),
   (Char.ofNat 0x41e, ['O']), (Char.ofNat 0x43e, ['o'])]

def translitRevChar (c : Char) : List Char := (translitRevTable.lookup c).getD [c]

/-- `translit(entryname, lc, reversed=True)`; the language-pack selection does
not change the mapping on the modelled repertoire. -/
def translit (lc : String) (s : String) : String := ⟨s.data.flatMap translitRevChar⟩

/-- `lang_map.get(lang.lower(), "ru")` from `custom_cyrillic_function`. -/
def langMap (lang : String) : String :=
  if lang = "rus" then "ru"
  else if lang = "ukr" then "uk"
  else if lang = "bul" then "bg"
  else "ru"

/-- `custom_cyrillic_function` from `auth_deduplication.py`. -/
def custom_cyrillic_function (entryname lang : String) : String :=
  if entryname = "" ∨ lang = "" then ""
  else
    let code := soundex (translit (langMap lang) entryname)
    if code ≠ "" then ⟨entryname.data.take 1 ++ code.data.drop 1⟩
    else code

/-- `blocking_key_udf` from `auth_deduplication.py`: Soundex directly when the
first character is ASCII alphabetic, otherwise the transliterate-then-Soundex
key re-prefixed with the original first character. -/
def blocking_key_udf (entryname lang : String) : String :=
  match entryname.data with
  | [] => ""
  | c :: _ =>
    if c.toNat ≤ 127 ∧ c.isAlpha then soundex entryname
    else custom_cyrillic_function entryname lang

/-! ### Clustering

Embedding of splink's `cluster_pairwise_predictions_at_threshold` followed by
the `cluster_results` loop of `auth_deduplication.py`: the retained pairs
(match probability at or above the threshold) are the edges of an undirected
graph over the input records; every input record is assigned the smallest
record id reachable from it as its cluster id — splink returns all records,
records in no retained pair forming singleton clusters. The `cluster_results`
loop then emits one `(auth_id, cluster_id)` row per record of the clustering
output, without any further filtering. -/

structure CRow where
  id : Nat
  auth_id : Nat
deriving DecidableEq, Repr

/-- Neighbours of a record id in the retained-pair graph. -/
def nbrs (edges : List (Nat × Nat)) (n : Nat) : List Nat :=
  (edges.filter (fun e => e.1 == n)).map Prod.snd ++
    (edges.filter (fun e => e.2 == n)).map Prod.fst

/-- One breadth-first growth step of a reachable set. -/
def grow (edges : List (Nat × Nat)) (s : List Nat) : List Nat :=
  s ++ ((s.flatMap (nbrs edges)).filter (fun m => !(s.contains m)))

/-- All record ids reachable from `n` (fuel 2·|edges|+1 suffices). -/
def component (edges : List (Nat × Nat)) (n : Nat) : List Nat :=
  (grow edges)^[2 * edges.length + 1] [n]

/-- The cluster id assigned to record id `n`: the smallest reachable id. -/
def clusterOf (edges : List (Nat × Nat)) (n : Nat) : Nat :=
  (component edges n).foldl Nat.min n

/-- The rows the `cluster_results` loop inserts into `authsource_clusters`:
one `(auth_id, cluster_id)` pair per record of the clustering output. -/
def cluster_results (nodes : List CRow) (edges : List (Nat × Nat)) : List (Nat × Nat) :=
  nodes.map (fun r => (r.auth_id, clusterOf edges r.id))

/-! ### `generate_links` -/

/-- One row of `df_clusters` as consumed by `generate_links` (only the
columns the function reads). -/
structure LRow where
  id : Nat
  server_id : Nat
  cluster_id : Nat
  lang : String
  field : Nat
  source_authid : Nat
  used_count : Nat
  full_name : String
deriving DecidableEq, Repr

/-- One merge suggestion: the structured content of a `merge_lines` entry
`url TAB cluster_id TAB main_name TAB dup_name`, whose url names
`authid=<canonical>&authid=<duplicate>`. -/
structure MergeLink where
  server_id : Nat
  cluster_id : Nat
  canonical_authid : Nat
  duplicate_authid : Nat
  canonical_name : String
  duplicate_name : String
deriving DecidableEq, Repr

/-- `sort_values(['source_authid', 'field'])` comparison. -/
def bySourceField (a b : LRow) : Prop :=
  a.source_authid < b.source_authid ∨
    (a.source_authid = b.source_authid ∧ a.field ≤ b.field)

instance : DecidableRel bySourceField := fun a b => by
  unfold bySourceField; infer_instance

/-- `sort_values('id')` comparison. -/
def byId (a b : LRow) : Prop := a.id ≤ b.id

instance : DecidableRel byId := fun a b => by
  unfold byId; infer_instance

instance : IsTotal LRow byId :=
  ⟨fun a b => Nat.le_total a.id b.id⟩

instance : IsTrans LRow byId :=
  ⟨fun a b c h1 h2 => Nat.le_trans h1 h2⟩

/-- `drop_duplicates('source_authid', keep='first')`. -/
def dedupBySource : List LRow → List Nat → List LRow
  | [], _ => []
  | r :: rest, seen =>
    if seen.contains r.source_authid then dedupBySource rest seen
    else r :: dedupBySource rest (r.source_authid :: seen)

/-- The deduplicated members of one (cluster, lang) group: rows sorted by
`(source_authid, field)` (so a field-200 row is preferred over a field-400
row of the same source authority), then first-kept per `source_authid`. -/
def uniqueMembers (g : List LRow) : List LRow :=
  dedupBySource (List.insertionSort bySourceField g) []

/-- `unique['used_count'].astype(int).max()`. -/
def maxUsedCount (u : List LRow) : Nat :=
  (u.map (fun r => r.used_count)).foldl Nat.max 0

/-- The canonical member: among the rows tied at the maximal used count, the
one with the smallest internal id (`tied.sort_values('id').iloc[0]`). -/
def mainMember (u : List LRow) : Option LRow :=
  (List.insertionSort byId (u.filter (fun r => r.used_count == maxUsedCount u))).head?

/-- The merge links of one (cluster, lang) group on one server. -/
def groupLinks (srv cid : Nat) (g : List LRow) : List MergeLink :=
  if g.length < 2 then []
  else if (uniqueMembers g).length < 2 then []
  else
    match mainMember (uniqueMembers g) with
    | none => []
    | some main =>
      ((uniqueMembers g).filter (fun r => r.source_authid ≠ main.source_authid)).map
        (fun r =>
          { server_id := srv, cluster_id := cid,
            canonical_authid := main.source_authid,
            duplicate_authid := r.source_authid,
            canonical_name := main.full_name,
            duplicate_name := r.full_name })

/-- Group-key order for `groupby(['cluster_id', 'lang'], sort=True)`. -/
def clLangLe (a b : Nat × String) : Prop :=
  a.1 < b.1 ∨ (a.1 = b.1 ∧ compare a.2 b.2 ≠ Ordering.gt)

instance : DecidableRel clLangLe := fun a b => by
  unfold clLangLe; infer_instance

/-- Nat order for `groupby('server_id', sort=True)`. -/
def natLe (a b : Nat) : Prop := a ≤ b

instance : DecidableRel natLe := fun a b => by
  unfold natLe; infer_instance

/-- One server's group of `df_clusters` rows restricted to the fields of
interest: `srv_grp = srv_grp[srv_grp['field'].isin([200, 400])]`. -/
def srvFieldRows (rows : List LRow) (srv : Nat) : List LRow :=
  (rows.filter (fun r => r.server_id == srv)).filter
    (fun r => r.field == 200 || r.field == 400)

/-- The links generated for one hosting server: skip the server when no row
of interest remains or when it has no registered domain, otherwise emit the
links of every (cluster, lang) group in sorted key order. -/
def serverLinks (servers : List (Nat × String)) (rows : List LRow) (srv : Nat) :
    List MergeLink :=
  if srvFieldRows rows srv = [] then []
  else
    match servers.lookup srv with
    | none => []
    | some dom =>
      if dom = "" then []
      else
        (List.insertionSort clLangLe
            ((srvFieldRows rows srv).map (fun r => (r.cluster_id, r.lang))).eraseDups).flatMap
          (fun k =>
            groupLinks srv k.1
              ((srvFieldRows rows srv).filter
                (fun r => r.cluster_id == k.1 && r.lang == k.2)))

/-- `generate_links` from `auth_deduplication.py`, returning the structured
merge links: rows are grouped by hosting server (sorted), and each server
contributes `serverLinks`. -/
def generate_links (servers : List (Nat × String)) (rows : List LRow) : List MergeLink :=
  (List.insertionSort natLe ((rows.map (fun r => r.server_id)).eraseDups)).flatMap
    (serverLinks servers rows)

/-! ### Derived predicates and concrete scenario data used by the proofs -/

/-- A character left untouched by every character-level map of `clean_text`. -/
def stableCh (c : Char) : Prop :=
  superscriptTr c = c ∧ subscriptTr c = c ∧ char_conversion c = [c] ∧
    chars_to_delete.contains c = false ∧ punctuation_rules c = [c]

instance : DecidablePred stableCh := fun c => by
  unfold stableCh; infer_instance

/-- Characters that can appear after the character stages of `clean_text` on
a `÷`-free control-free input: whitespace, or a stable non-space non-control
character. -/
def passOK (c : Char) : Prop :=
  pySpace c = true ∨ (stableCh c ∧ isCtl c = false ∧ pySpace c = false)

/-- A character of a fully normalized string: the ASCII space, or a stable
non-space non-control character. -/
def CharOK (c : Char) : Prop :=
  c = ' ' ∨ (stableCh c ∧ isCtl c = false ∧ pySpace c = false)

/-- No two adjacent ASCII spaces. -/
def noAdjSpace (l : List Char) : Prop :=
  List.Chain' (fun a b => ¬(a = ' ' ∧ b = ' ')) l

/-- The canonical fixed-point form of `clean_text` output. -/
def Canon (l : List Char) : Prop :=
  (∀ c ∈ l, CharOK c) ∧ noAdjSpace l ∧ l.head? ≠ some ' ' ∧ l.getLast? ≠ some ' '

def digitChars : List Char := ['0', '1', '2', '3', '4', '5', '6', '7', '8', '9']

def convOutChars : List Char :=
  ['A', 'E', 'a', 'e', 'O', 'o', 'D', 'd', 'i', 'U', 'u', 'T', 'H', 't', 'h', 'S']

def punctOutChars : List Char := ['-', '.', '@', '&', '+', 'x']

/-- A four-digit year. -/
def FourDigitYear (l : List Char) : Prop :=
  l.length = 4 ∧ ∀ c ∈ l, c.isDigit = true

/-- The shape `YYYY-YYYY`. -/
def DateRange (l : List Char) : Prop :=
  ∃ a b, l = a ++ '-' :: b ∧ FourDigitYear a ∧ FourDigitYear b

/-- The shape `YYYY-`. -/
def DateOpen (l : List Char) : Prop :=
  ∃ a, l = a ++ ['-'] ∧ FourDigitYear a

/-- The shape `YYYY?`. -/
def DateUncertain (l : List Char) : Prop :=
  ∃ a, l = a ++ ['?'] ∧ FourDigitYear a

/-- The record ids of the members of cluster `c`. -/
def clusterMemberIds (nodes : List CRow) (edges : List (Nat × Nat)) (c : Nat) : List Nat :=
  (nodes.filter (fun r => clusterOf edges r.id == c)).map (fun r => r.id)

/-- The Cyrillic heading `"Шевченко"` of the end-to-end scenario
(U+0428 U+0435 U+0432 U+0447 U+0435 U+043D U+043A U+043E). -/
def shevCyr : String :=
  ⟨[Char.ofNat 0x428, Char.ofNat 0x435, Char.ofNat 0x432, Char.ofNat 0x447,
    Char.ofNat 0x435, Char.ofNat 0x43d, Char.ofNat 0x43a, Char.ofNat 0x43e]⟩

/-- A mixed-script Roman-numeral token: Cyrillic Х (U+0425), Latin I,
Cyrillic Х. -/
def romanTokenMixed : String := ⟨[Char.ofNat 0x425, 'I', Char.ofNat 0x425]⟩

/-- The spec example token `"ХІХ"`: all-Cyrillic Х (U+0425), І (U+0406),
Х (U+0425). -/
def romanTokenCyr : String :=
  ⟨[Char.ofNat 0x425, Char.ofNat 0x406, Char.ofNat 0x425]⟩

/-- Two variant-only (field 400) members of one cluster on one server. -/
def variantOnlyRows : List LRow :=
  [{ id := 1, server_id := 1, cluster_id := 5, lang := "ukr", field := 400,
     source_authid := 101, used_count := 3, full_name := "A" },
   { id := 2, server_id := 1, cluster_id := 5, lang := "ukr", field := 400,
     source_authid := 102, used_count := 2, full_name := "B" }]

def exampleServers : List (Nat × String) := [(1, "staff.example.org")]

/-- A cluster whose member with source authority id 7 has only linked
(field 700) rows, next to two main (field 200) members. -/
def linkedOnlyRows : List LRow :=
  [{ id := 1, server_id := 1, cluster_id := 5, lang := "ukr", field := 200,
     source_authid := 101, used_count := 3, full_name := "A" },
   { id := 2, server_id := 1, cluster_id := 5, lang := "ukr", field := 200,
     source_authid := 102, used_count := 1, full_name := "B" },
   { id := 3, server_id := 1, cluster_id := 5, lang := "ukr", field := 700,
     source_authid := 7, used_count := 9, full_name := "C" }]

/-- A group with a used-count tie between sources 201 (id 2) and 202 (id 1). -/
def tiedGroup : List LRow :=
  [{ id := 2, server_id := 1, cluster_id := 9, lang := "eng", field := 200,
     source_authid := 201, used_count := 5, full_name := "P" },
   { id := 1, server_id := 1, cluster_id := 9, lang := "eng", field := 200,
     source_authid := 202, used_count := 5, full_name := "Q" }]

/-! ### Helper lemmas -/

theorem mem_of_head? {α : Type} {l : List α} {a : α} (h : l.head? = some a) : a ∈ l := by
  cases l with
  | nil => simp at h
  | cons b t =>
    simp only [List.head?_cons, Option.some.injEq] at h
    exact h ▸ List.mem_cons_self _ _

theorem lookup_none_keys {β : Type} : ∀ (ps : List (Char × β)) (c : Char),
    (∀ p ∈ ps, p.1 ≠ c) → ps.lookup c = none
  | [], _, _ => rfl
  | (k, v) :: rest, c, h => by
    have hk : k ≠ c := h (k, v) (List.mem_cons_self _ _)
    have hb : (c == k) = false := beq_false_of_ne fun he => hk he.symm
    simp only [List.lookup, hb]
    exact lookup_none_keys rest c fun p hp => h p (List.mem_cons_of_mem _ hp)

theorem lookup_cases {β : Type} : ∀ (ps : List (Char × β)) (c : Char),
    ps.lookup c = none ∨ ∃ v, (c, v) ∈ ps ∧ ps.lookup c = some v
  | [], _ => Or.inl rfl
  | (k, v) :: rest, c => by
    by_cases hck : c = k
    · subst hck
      exact Or.inr ⟨v, List.mem_cons_self _ _, by simp [List.lookup]⟩
    · have hb : (c == k) = false := beq_false_of_ne hck
      rcases lookup_cases rest c with h1 | ⟨w, hw, h2⟩
      · exact Or.inl (by simp only [List.lookup, hb]; exact h1)
      · exact Or.inr ⟨w, List.mem_cons_of_mem _ hw, by simp only [List.lookup, hb]; exact h2⟩

theorem map_eq_self_of {α : Type} (f : α → α) :
    ∀ l : List α, (∀ c ∈ l, f c = c) → l.map f = l
  | [], _ => rfl
  | c :: t, h => by
    rw [List.map_cons, h c (List.mem_cons_self _ _),
      map_eq_self_of f t fun x hx => h x (List.mem_cons_of_mem _ hx)]

theorem flatMap_eq_self_of {α : Type} (f : α → List α) :
    ∀ l : List α, (∀ c ∈ l, f c = [c]) → l.flatMap f = l
  | [], _ => rfl
  | c :: t, h => by
    rw [List.flatMap_cons, h c (List.mem_cons_self _ _),
      flatMap_eq_self_of f t fun x hx => h x (List.mem_cons_of_mem _ hx)]
    rfl

theorem dropWhile_head_false {p : Char → Bool} :
    ∀ {l : List Char} {c : Char} {t : List Char}, l.dropWhile p = c :: t → p c = false := by
  intro l
  induction l with
  | nil => intro c t h; simp at h
  | cons b r ih =>
    intro c t h
    rw [List.dropWhile_cons] at h
    by_cases hb : p b = true
    · rw [if_pos hb] at h
      exact ih h
    · rw [if_neg hb] at h
      cases h
      simpa using hb

/-! ### C9: the homoglyph conversion maps are mutually inverse off each
other's alphabet -/

theorem cyr_char_id (c : Char) (h : c ∉ latin_chars) : convert_to_cyrillic_char c = c := by
  unfold convert_to_cyrillic_char
  rw [lookup_none_keys]
  · rfl
  · intro p hp he
    rcases List.mem_map.1 hp with ⟨q, hq, rfl⟩
    exact h (he ▸ (List.of_mem_zip hq).2)

theorem lat_char_id (c : Char) (h : c ∉ cyrillic_chars) : convert_to_latin_char c = c := by
  unfold convert_to_latin_char
  rw [lookup_none_keys]
  · rfl
  · intro p hp he
    exact h (he ▸ (List.of_mem_zip hp).1)

theorem latin_roundtrip_char (c : Char) (h : c ∉ cyrillic_chars) :
    convert_to_latin_char (convert_to_cyrillic_char c) = c := by
  by_cases hl : c ∈ latin_chars
  · exact (by decide : ∀ x ∈ latin_chars,
      convert_to_latin_char (convert_to_cyrillic_char x) = x) c hl
  · rw [cyr_char_id c hl, lat_char_id c h]

theorem cyr_roundtrip_char (c : Char) (h : c ∉ latin_chars) :
    convert_to_cyrillic_char (convert_to_latin_char c) = c := by
  by_cases hc : c ∈ cyrillic_chars
  · exact (by decide : ∀ x ∈ cyrillic_chars,
      convert_to_cyrillic_char (convert_to_latin_char x) = x) c hc
  · rw [lat_char_id c hc, cyr_char_id c h]

/-- C9: the homoglyph conversion maps are mutually inverse on their own
alphabets: a string free of the Cyrillic homoglyph set is recovered by
`convert_to_latin` after `convert_to_cyrillic`, and a string free of the
Latin homoglyph set is recovered by `convert_to_cyrillic` after
`convert_to_latin`. -/
theorem C9_homoglyph_maps_inverse :
    (∀ w : String, (∀ c ∈ w.data, c ∉ cyrillic_chars) →
      convert_to_latin (convert_to_cyrillic w) = w) ∧
    (∀ w : String, (∀ c ∈ w.data, c ∉ latin_chars) →
      convert_to_cyrillic (convert_to_latin w) = w) := by
  constructor
  · intro w hw
    apply String.ext
    show (w.data.map convert_to_cyrillic_char).map convert_to_latin_char = w.data
    rw [List.map_map]
    exact map_eq_self_of _ w.data fun c hc => latin_roundtrip_char c (hw c hc)
  · intro w hw
    apply String.ext
    show (w.data.map convert_to_latin_char).map convert_to_cyrillic_char = w.data
    rw [List.map_map]
    exact map_eq_self_of _ w.data fun c hc => cyr_roundtrip_char c (hw c hc)

/-- Witness for C9 at the concrete strings `"Taras"` (no Cyrillic homoglyph
characters) and `"Кобзар"` (no Latin homoglyph characters). -/
theorem C9_homoglyph_maps_inverse_witness :
    convert_to_latin (convert_to_cyrillic "Taras") = "Taras" ∧
    convert_to_cyrillic (convert_to_latin
      ⟨[Char.ofNat 0x41a, Char.ofNat 0x43e, Char.ofNat 0x431, Char.ofNat 0x437,
        Char.ofNat 0x430, Char.ofNat 0x440]⟩) =
      ⟨[Char.ofNat 0x41a, Char.ofNat 0x43e, Char.ofNat 0x431, Char.ofNat 0x437,
        Char.ofNat 0x430, Char.ofNat 0x440]⟩ :=
  ⟨C9_homoglyph_maps_inverse.1 "Taras" (by decide),
   C9_homoglyph_maps_inverse.2 _ (by decide)⟩

/-! ### C2: the Roman-numeral branch of the homoglyph fixer -/

/-- C2: contrary to the claim, a Roman-numeral-eligible token is never
coerced to Latin. The mixed-script token Х-I-Х (Cyrillic Х, Latin I,
Cyrillic Х) enters the mixed-alphabet branch, but the subset test
`word_chars_set.issubset(roman_numerals)` is evaluated on the original
character set, whose Cyrillic Х is not among the Latin letters `CDMXLVI`;
the spec example token `"ХІХ"` is all-Cyrillic and never even enters the
branch. Both are returned unchanged rather than as the Latin `"XIX"`. -/
theorem C2_roman_branch_dead :
    fix_homoglyph_errors romanTokenMixed = romanTokenMixed ∧
    fix_homoglyph_errors romanTokenCyr = romanTokenCyr ∧
    convert_to_latin romanTokenMixed = "XIX" ∧
    convert_to_latin romanTokenCyr = "XIX" ∧
    romanTokenMixed ≠ "XIX" ∧ romanTokenCyr ≠ "XIX" := by
  refine ⟨by decide, by decide, by decide, by decide, by decide, by decide⟩

/-! ### C4: the two scenario headings do not share a blocking key -/

/-- C4: counterexample. `blocking_key_udf` maps the Cyrillic heading
`"Шевченко"` (lang `ukr`) to `"Ш125"` — the Soundex code of its
transliteration `"Shevchenko"` re-prefixed with the original Cyrillic `Ш` —
while `"Shevchenko"` (lang empty) maps to `"S125"`; the two keys are not
equal, contradicting the claimed equality. -/
theorem C4_blocking_key_counterexample :
    blocking_key_udf shevCyr "ukr" = ⟨Char.ofNat 0x428 :: ['1', '2', '5']⟩ ∧
    blocking_key_udf "Shevchenko" "" = "S125" ∧
    blocking_key_udf shevCyr "ukr" ≠ blocking_key_udf "Shevchenko" "" := by
  refine ⟨by decide, by decide, by decide⟩

/-- C4 (amended): the two headings' keys share the transliteration-derived
phonetic code `125` — they agree on everything after the first character —
but differ in their first characters (`Ш` vs `S`), because the Cyrillic key
is re-prefixed with the original first character; hence the keys themselves
are distinct. -/
theorem C4_blocking_key_amended :
    (blocking_key_udf shevCyr "ukr").drop 1 = (blocking_key_udf "Shevchenko" "").drop 1 ∧
    (blocking_key_udf shevCyr "ukr").take 1 = ⟨[Char.ofNat 0x428]⟩ ∧
    (blocking_key_udf "Shevchenko" "").take 1 = "S" ∧
    blocking_key_udf shevCyr "ukr" ≠ blocking_key_udf "Shevchenko" "" := by
  refine ⟨by decide, by decide, by decide, by decide⟩

/-! ### C10: `normalize_isni` output shape -/

theorem mem_take_of_get? {l : List Char} {i n : Nat} {c : Char}
    (hin : i < n) (h : l.get? i = some c) : c ∈ l.take n := by
  have ht : (l.take n).get? i = some c := by
    rw [List.get?_eq_getElem?, List.getElem?_take_of_lt hin, ← List.get?_eq_getElem?]
    exact h
  exact List.get?_mem ht

/-- C10: for every input string, `normalize_isni` returns either the empty
string or a string of exactly 16 characters — 15 decimal digits followed by
a digit or the uppercase letter `X`; a lowercase trailing `x` is never
accepted. -/
theorem C10_normalize_isni_shape (s : String) :
    normalize_isni s = "" ∨
      ((normalize_isni s).length = 16 ∧
        (∀ i : Nat, i < 15 →
          ∃ c : Char, (normalize_isni s).data.get? i = some c ∧ c.isDigit = true) ∧
        (∃ c : Char, (normalize_isni s).data.get? 15 = some c ∧
          (c.isDigit = true ∨ c = 'X') ∧ c ≠ 'x')) := by
  unfold normalize_isni
  by_cases h0 : s = ""
  · rw [if_pos h0]
    exact Or.inl rfl
  · rw [if_neg h0]
    by_cases hv : is_valid_isni (s.data.filter isniKeep) = true
    · rw [if_pos hv]
      right
      unfold is_valid_isni at hv
      simp only [Bool.and_eq_true, beq_iff_eq, List.all_eq_true] at hv
      obtain ⟨⟨h16, hall⟩, hlast⟩ := hv
      refine ⟨h16, ?_, ?_⟩
      · intro i hi
        have hilen : i < (s.data.filter isniKeep).length := by omega
        refine ⟨(s.data.filter isniKeep).get ⟨i, hilen⟩, List.get?_eq_get hilen, ?_⟩
        exact hall _ (mem_take_of_get? hi (List.get?_eq_get hilen))
      · cases hopt : (s.data.filter isniKeep).get? 15 with
        | none => rw [hopt] at hlast; simp at hlast
        | some c =>
          rw [hopt] at hlast
          simp only [Option.elim_some, Bool.or_eq_true, beq_iff_eq] at hlast
          refine ⟨c, rfl, hlast, ?_⟩
          rcases hlast with hd | hX
          · intro he
            rw [he] at hd
            exact absurd hd (by decide)
          · rw [hX]
            decide
    · rw [if_neg hv]
      exact Or.inl rfl

/-! ### C6: blocking-key determinism and first-letter separation -/

theorem soundex_head (s : String) (c : Char) (t : List Char) (h : s.data = c :: t) :
    (soundex s).data.head? = some (pyUpperCh c) := by
  unfold soundex
  rw [h]
  rfl

/-- C6: counterexample. The entrynames `"ab"` and `"Ab"` have differing
first letters (the characters `a` and `A` are distinct) and both take the
ASCII-phonetic branch, yet their blocking keys coincide (both `"A100"`,
since Soundex uppercases the retained first letter). -/
theorem C6_blocking_key_counterexample :
    blocking_key_udf "ab" "" = blocking_key_udf "Ab" "" ∧
    "ab".data.head? ≠ "Ab".data.head? ∧
    blocking_key_udf "ab" "" = "A100" := by
  refine ⟨by decide, by decide, by decide⟩

/-- C6 (amended): `blocking_key_udf` is a pure function — equal
`(entryname, lang)` pairs always yield equal keys — and in the
ASCII-phonetic branch (first character ASCII alphabetic) two entrynames
whose first letters differ up to ASCII case (distinct uppercased first
letters) always produce different blocking keys, the key beginning with the
uppercased first letter. -/
theorem C6_blocking_key_amended :
    (∀ e1 l1 e2 l2 : String, e1 = e2 → l1 = l2 →
      blocking_key_udf e1 l1 = blocking_key_udf e2 l2) ∧
    (∀ (e1 e2 l1 l2 : String) (c1 c2 : Char),
      e1.data.head? = some c1 → e2.data.head? = some c2 →
      c1.toNat ≤ 127 → c1.isAlpha = true → c2.toNat ≤ 127 → c2.isAlpha = true →
      pyUpperCh c1 ≠ pyUpperCh c2 →
      blocking_key_udf e1 l1 ≠ blocking_key_udf e2 l2) := by
  constructor
  · intro e1 l1 e2 l2 he hl
    rw [he, hl]
  · intro e1 e2 l1 l2 c1 c2 h1 h2 ha1 hb1 ha2 hb2 hne heq
    have hd1 : ∃ t, e1.data = c1 :: t := by
      cases hd : e1.data with
      | nil => rw [hd] at h1; simp at h1
      | cons x r =>
        rw [hd] at h1
        simp only [List.head?_cons, Option.some.injEq] at h1
        exact ⟨r, by rw [h1]⟩
    have hd2 : ∃ t, e2.data = c2 :: t := by
      cases hd : e2.data with
      | nil => rw [hd] at h2; simp at h2
      | cons x r =>
        rw [hd] at h2
        simp only [List.head?_cons, Option.some.injEq] at h2
        exact ⟨r, by rw [h2]⟩
    obtain ⟨t1, ht1⟩ := hd1
    obtain ⟨t2, ht2⟩ := hd2
    have hk1 : blocking_key_udf e1 l1 = soundex e1 := by
      simp only [blocking_key_udf, ht1]
      rw [if_pos ⟨ha1, hb1⟩]
    have hk2 : blocking_key_udf e2 l2 = soundex e2 := by
      simp only [blocking_key_udf, ht2]
      rw [if_pos ⟨ha2, hb2⟩]
    rw [hk1, hk2] at heq
    have hh := congrArg (fun u : String => u.data.head?) heq
    simp only at hh
    rw [soundex_head e1 c1 t1 ht1, soundex_head e2 c2 t2 ht2] at hh
    exact hne (Option.some.inj hh)

/-- Witness for the amended C6 at `"Anna"`/`"Bob"`. -/
theorem C6_blocking_key_amended_witness :
    blocking_key_udf "Anna" "" ≠ blocking_key_udf "Bob" "" :=
  C6_blocking_key_amended.2 "Anna" "Bob" "" "" 'A' 'B' (by decide) (by decide)
    (by decide) (by decide) (by decide) (by decide) (by decide)

/-! ### C7: cluster materialization -/

/-- C7: counterexample. With two records and no retained pair both records
are singleton components, yet `cluster_results` emits one row for each
(each its own cluster instead of being dropped); and two rows of one entity
falling in different components give that entity id two different cluster
ids, so the emitted clusters are not disjoint as sets of entity ids. -/
theorem C7_cluster_counterexample :
    cluster_results [⟨1, 10⟩, ⟨2, 20⟩] [] = [(10, 1), (20, 2)] ∧
    (10, 1) ∈ cluster_results [⟨1, 10⟩, ⟨2, 10⟩] [] ∧
    (10, 2) ∈ cluster_results [⟨1, 10⟩, ⟨2, 10⟩] [] := by
  refine ⟨by decide, by decide, by decide⟩

/-- C7 (amended): the clustering output materializes every record — exactly
one `(entity_id, cluster_id)` row per record of the clustering output; a
record incident to no retained pair keeps its own record id as cluster id
and is still emitted (singletons are materialized, not dropped); and
distinct cluster ids have disjoint member sets at the record level. -/
theorem C7_clusters_amended (nodes : List CRow) (edges : List (Nat × Nat)) :
    (cluster_results nodes edges).length = nodes.length ∧
    (∀ r ∈ nodes, (∀ e ∈ edges, e.1 ≠ r.id ∧ e.2 ≠ r.id) →
      clusterOf edges r.id = r.id ∧ (r.auth_id, r.id) ∈ cluster_results nodes edges) ∧
    (∀ c1 c2 : Nat, c1 ≠ c2 → ∀ i : Nat,
      i ∈ clusterMemberIds nodes edges c1 → i ∉ clusterMemberIds nodes edges c2) := by
  refine ⟨by simp [cluster_results], ?_, ?_⟩
  · intro r hr hiso
    have h1 : edges.filter (fun e => e.1 == r.id) = [] :=
      List.filter_eq_nil_iff.2 fun e he => by simpa using (hiso e he).1
    have h2 : edges.filter (fun e => e.2 == r.id) = [] :=
      List.filter_eq_nil_iff.2 fun e he => by simpa using (hiso e he).2
    have hnb : nbrs edges r.id = [] := by
      unfold nbrs
      rw [h1, h2]
      rfl
    have hgrow : grow edges [r.id] = [r.id] := by
      unfold grow
      simp [hnb]
    have hcomp : component edges r.id = [r.id] :=
      Function.iterate_fixed hgrow _
    have hco : clusterOf edges r.id = r.id := by
      unfold clusterOf
      rw [hcomp]
      simp
    refine ⟨hco, ?_⟩
    unfold cluster_results
    exact List.mem_map.2 ⟨r, hr, by rw [hco]⟩
  · intro c1 c2 hne i h1 h2
    unfold clusterMemberIds at h1 h2
    rcases List.mem_map.1 h1 with ⟨r, hr1, rfl⟩
    rcases List.mem_map.1 h2 with ⟨q, hq1, hqi⟩
    have hrc := (List.mem_filter.1 hr1).2
    have hqc := (List.mem_filter.1 hq1).2
    simp only [beq_iff_eq] at hrc hqc
    rw [hqi] at hqc
    exact hne (hrc.symm.trans hqc)

/-- Witness for the amended C7: a record not incident to the only retained
pair keeps its own id and is materialized. -/
theorem C7_clusters_amended_witness :
    clusterOf [(3, 4)] 1 = 1 ∧ ((10 : Nat), (1 : Nat)) ∈ cluster_results [⟨1, 10⟩] [(3, 4)] :=
  (C7_clusters_amended [⟨1, 10⟩] [(3, 4)]).2.1 ⟨1, 10⟩ (by decide) (by decide)

/-! ### C3 and C8: link-generation lemmas -/

theorem le_foldl_max : ∀ (xs : List Nat) (a : Nat), a ≤ xs.foldl Nat.max a
  | [], _ => le_refl _
  | y :: t, a => le_trans (Nat.le_max_left a y) (le_foldl_max t _)

theorem foldl_max_le : ∀ (xs : List Nat) (a x : Nat), x ∈ xs → x ≤ xs.foldl Nat.max a
  | [], _, _, h => absurd h (List.not_mem_nil _)
  | y :: t, a, x, h => by
    rcases List.mem_cons.1 h with rfl | ht
    · exact le_trans (Nat.le_max_right a x) (le_foldl_max t _)
    · exact foldl_max_le t (Nat.max a y) x ht

theorem foldl_max_mem : ∀ (xs : List Nat) (a : Nat),
    xs.foldl Nat.max a = a ∨ xs.foldl Nat.max a ∈ xs
  | [], _ => Or.inl rfl
  | y :: t, a => by
    rcases foldl_max_mem t (Nat.max a y) with h | h
    · rcases Nat.le_total a y with hle | hle
      · have hm : Nat.max a y = y := Nat.max_eq_right hle
        exact Or.inr (by
          rw [List.foldl_cons, h, hm]
          exact List.mem_cons_self _ _)
      · have hm : Nat.max a y = a := Nat.max_eq_left hle
        exact Or.inl (by rw [List.foldl_cons, h, hm])
    · exact Or.inr (List.mem_cons_of_mem _ (by rw [List.foldl_cons]; exact h))

theorem mainMember_spec (u : List LRow) (hu : u ≠ []) :
    ∃ main, mainMember u = some main ∧ main ∈ u ∧
      main.used_count = maxUsedCount u ∧
      (∀ r ∈ u, r.used_count ≤ main.used_count) ∧
      (∀ r ∈ u, r.used_count = main.used_count → main.id ≤ r.id) := by
  have hattain : ∃ r ∈ u, r.used_count = maxUsedCount u := by
    unfold maxUsedCount
    rcases foldl_max_mem (u.map fun r => r.used_count) 0 with h | h
    · obtain ⟨r, t, rfl⟩ : ∃ r t, u = r :: t := by
        cases u with
        | nil => exact absurd rfl hu
        | cons a b => exact ⟨a, b, rfl⟩
      refine ⟨r, List.mem_cons_self _ _, ?_⟩
      have h1 : r.used_count ≤ (List.map (fun r => r.used_count) (r :: t)).foldl Nat.max 0 :=
        foldl_max_le _ _ _ (List.mem_map_of_mem _ (List.mem_cons_self _ _))
      omega
    · rcases List.mem_map.1 h with ⟨r, hr, he⟩
      exact ⟨r, hr, he⟩
  obtain ⟨r0, hr0, hr0m⟩ := hattain
  have hr0t : r0 ∈ u.filter (fun r => r.used_count == maxUsedCount u) :=
    List.mem_filter.2 ⟨hr0, by simp [hr0m]⟩
  have hperm :=
    List.perm_insertionSort byId (u.filter (fun r => r.used_count == maxUsedCount u))
  have hmemS : r0 ∈ List.insertionSort byId
      (u.filter (fun r => r.used_count == maxUsedCount u)) :=
    hperm.mem_iff.2 hr0t
  obtain ⟨main, rest, hcons⟩ : ∃ m rest,
      List.insertionSort byId (u.filter (fun r => r.used_count == maxUsedCount u)) =
        m :: rest := by
    cases hs : List.insertionSort byId
        (u.filter (fun r => r.used_count == maxUsedCount u)) with
    | nil => rw [hs] at hmemS; exact absurd hmemS (List.not_mem_nil _)
    | cons m rest => exact ⟨m, rest, rfl⟩
  have hmm : mainMember u = some main := by
    unfold mainMember
    rw [hcons]
    rfl
  have hmainT : main ∈ u.filter (fun r => r.used_count == maxUsedCount u) :=
    hperm.mem_iff.1 (hcons ▸ List.mem_cons_self _ _)
  obtain ⟨hmainU, hmainB⟩ := List.mem_filter.1 hmainT
  have hmainE : main.used_count = maxUsedCount u := by simpa using hmainB
  refine ⟨main, hmm, hmainU, hmainE, ?_, ?_⟩
  · intro r hr
    rw [hmainE]
    exact foldl_max_le _ _ _ (List.mem_map_of_mem _ hr)
  · intro r hr hre
    have hrt : r ∈ u.filter (fun q => q.used_count == maxUsedCount u) :=
      List.mem_filter.2 ⟨hr, by simp [hre, hmainE]⟩
    have hrs : r ∈ List.insertionSort byId
        (u.filter (fun q => q.used_count == maxUsedCount u)) :=
      hperm.mem_iff.2 hrt
    rw [hcons] at hrs
    rcases List.mem_cons.1 hrs with rfl | hrest
    · exact le_refl _
    · have hsort := List.sorted_insertionSort byId
        (u.filter (fun q => q.used_count == maxUsedCount u))
      rw [hcons] at hsort
      exact List.rel_of_sorted_cons hsort r hrest

theorem mainMember_mem (u : List LRow) (main : LRow) (h : mainMember u = some main) :
    main ∈ u := by
  unfold mainMember at h
  have h1 := mem_of_head? h
  have h2 := (List.perm_insertionSort byId _).mem_iff.1 h1
  exact (List.mem_filter.1 h2).1

theorem mem_of_dedupBySource : ∀ (l : List LRow) (seen : List Nat) (r : LRow),
    r ∈ dedupBySource l seen → r ∈ l
  | [], _, _, h => absurd h (List.not_mem_nil _)
  | x :: t, seen, r, h => by
    unfold dedupBySource at h
    by_cases hx : seen.contains x.source_authid
    · rw [if_pos hx] at h
      exact List.mem_cons_of_mem _ (mem_of_dedupBySource t seen r h)
    · rw [if_neg hx] at h
      rcases List.mem_cons.1 h with rfl | h2
      · exact List.mem_cons_self _ _
      · exact List.mem_cons_of_mem _ (mem_of_dedupBySource t _ r h2)

theorem mem_of_uniqueMembers (g : List LRow) (r : LRow) (h : r ∈ uniqueMembers g) :
    r ∈ g :=
  (List.perm_insertionSort bySourceField g).mem_iff.1 (mem_of_dedupBySource _ _ _ h)

theorem groupLinks_provenance (srv cid : Nat) (g : List LRow) (l : MergeLink)
    (h : l ∈ groupLinks srv cid g) :
    (∃ m ∈ g, m.source_authid = l.canonical_authid) ∧
    (∃ m ∈ g, m.source_authid = l.duplicate_authid) := by
  unfold groupLinks at h
  by_cases h1 : g.length < 2
  · rw [if_pos h1] at h
    exact absurd h (List.not_mem_nil _)
  rw [if_neg h1] at h
  by_cases h2 : (uniqueMembers g).length < 2
  · rw [if_pos h2] at h
    exact absurd h (List.not_mem_nil _)
  rw [if_neg h2] at h
  cases hmm : mainMember (uniqueMembers g) with
  | none =>
    rw [hmm] at h
    exact absurd h (List.not_mem_nil _)
  | some main =>
    rw [hmm] at h
    rcases List.mem_map.1 h with ⟨r, hrf, rfl⟩
    have hru : r ∈ uniqueMembers g := (List.mem_filter.1 hrf).1
    exact ⟨⟨main, mem_of_uniqueMembers _ _ (mainMember_mem _ _ hmm), rfl⟩,
           ⟨r, mem_of_uniqueMembers _ _ hru, rfl⟩⟩

theorem serverLinks_provenance (servers : List (Nat × String)) (rows : List LRow)
    (srv : Nat) (l : MergeLink) (h : l ∈ serverLinks servers rows srv) :
    (∃ r ∈ rows, (r.field = 200 ∨ r.field = 400) ∧ r.source_authid = l.canonical_authid) ∧
    (∃ r ∈ rows, (r.field = 200 ∨ r.field = 400) ∧ r.source_authid = l.duplicate_authid) := by
  unfold serverLinks at h
  by_cases hE : srvFieldRows rows srv = []
  · rw [if_pos hE] at h
    exact absurd h (List.not_mem_nil _)
  rw [if_neg hE] at h
  cases hdom : servers.lookup srv with
  | none =>
    simp only [hdom] at h
    exact absurd h (List.not_mem_nil _)
  | some dom =>
    simp only [hdom] at h
    by_cases hde : dom = ""
    · rw [if_pos hde] at h
      exact absurd h (List.not_mem_nil _)
    rw [if_neg hde] at h
    rcases List.mem_flatMap.1 h with ⟨k, hk, hgl⟩
    have hmem : ∀ m : LRow,
        m ∈ (srvFieldRows rows srv).filter
          (fun r => r.cluster_id == k.1 && r.lang == k.2) →
        m ∈ rows ∧ (m.field = 200 ∨ m.field = 400) := by
      intro m hm
      have hm1 : m ∈ srvFieldRows rows srv := (List.mem_filter.1 hm).1
      unfold srvFieldRows at hm1
      obtain ⟨hm2, hfield⟩ := List.mem_filter.1 hm1
      refine ⟨(List.mem_filter.1 hm2).1, ?_⟩
      simpa using hfield
    obtain ⟨⟨m1, hm1, he1⟩, ⟨m2, hm2, he2⟩⟩ := groupLinks_provenance _ _ _ _ hgl
    obtain ⟨hm1r, hm1f⟩ := hmem m1 hm1
    obtain ⟨hm2r, hm2f⟩ := hmem m2 hm2
    exact ⟨⟨m1, hm1r, hm1f, he1⟩, ⟨m2, hm2r, hm2f, he2⟩⟩

theorem generate_links_provenance (servers : List (Nat × String)) (rows : List LRow)
    (l : MergeLink) (h : l ∈ generate_links servers rows) :
    (∃ r ∈ rows, (r.field = 200 ∨ r.field = 400) ∧ r.source_authid = l.canonical_authid) ∧
    (∃ r ∈ rows, (r.field = 200 ∨ r.field = 400) ∧ r.source_authid = l.duplicate_authid) := by
  unfold generate_links at h
  rcases List.mem_flatMap.1 h with ⟨srv, _, hbody⟩
  exact serverLinks_provenance servers rows srv l hbody

/-- C3: counterexample. Two members of the same cluster whose only rows are
VARIANT (field 400) rows do generate a MergeLink between them: the code
restricts to fields 200 and 400, so variant-only members participate (it is
the LINKED/700 rows that are dropped). -/
theorem C3_variant_only_counterexample :
    (∀ r ∈ variantOnlyRows, r.field = 400) ∧
    generate_links exampleServers variantOnlyRows =
      [{ server_id := 1, cluster_id := 5, canonical_authid := 101,
         duplicate_authid := 102, canonical_name := "A", duplicate_name := "B" }] := by
  refine ⟨by decide, by decide⟩

/-- C3 (amended): link generation restricts each server's cluster members to
rows whose field kind is MAIN or VARIANT (MARC fields 200 and 400): a member
whose only rows are LINKED (field 700) never participates in any emitted
MergeLink. -/
theorem C3_linked_only_excluded (servers : List (Nat × String)) (rows : List LRow)
    (sid : Nat) (h : ∀ r ∈ rows, r.source_authid = sid → r.field = 700) :
    ∀ l ∈ generate_links servers rows,
      l.canonical_authid ≠ sid ∧ l.duplicate_authid ≠ sid := by
  intro l hl
  obtain ⟨⟨r1, hr1, hf1, hs1⟩, ⟨r2, hr2, hf2, hs2⟩⟩ :=
    generate_links_provenance servers rows l hl
  constructor
  · intro he
    have h7 := h r1 hr1 (by rw [hs1, he])
    rcases hf1 with h2 | h2 <;> omega
  · intro he
    have h7 := h r2 hr2 (by rw [hs2, he])
    rcases hf2 with h2 | h2 <;> omega

/-- Witness for the amended C3: in `linkedOnlyRows` the member with source
authority id 7 has only field-700 rows; the one emitted link does not name
it on either side. -/
theorem C3_linked_only_excluded_witness :
    ({ server_id := 1, cluster_id := 5, canonical_authid := 101,
       duplicate_authid := 102, canonical_name := "A",
       duplicate_name := "B" } : MergeLink).canonical_authid ≠ 7 ∧
    ({ server_id := 1, cluster_id := 5, canonical_authid := 101,
       duplicate_authid := 102, canonical_name := "A",
       duplicate_name := "B" } : MergeLink).duplicate_authid ≠ 7 :=
  C3_linked_only_excluded exampleServers linkedOnlyRows 7 (by decide) _ (by decide)

/-- C8: within each (server, cluster, language) group, after deduplicating
members by source authority id, the canonical member is a member with the
highest usage count; when several members tie at that count, one with the
lowest internal id is selected; and one MergeLink is emitted from each
remaining deduplicated member to the canonical member. -/
theorem C8_canonical_selection (g : List LRow) (srv cid : Nat)
    (hg : 2 ≤ g.length) (hu : 2 ≤ (uniqueMembers g).length) :
    ∃ main, mainMember (uniqueMembers g) = some main ∧ main ∈ uniqueMembers g ∧
      (∀ r ∈ uniqueMembers g, r.used_count ≤ main.used_count) ∧
      (∀ r ∈ uniqueMembers g, r.used_count = main.used_count → main.id ≤ r.id) ∧
      groupLinks srv cid g =
        ((uniqueMembers g).filter (fun r => r.source_authid ≠ main.source_authid)).map
          (fun r =>
            { server_id := srv, cluster_id := cid,
              canonical_authid := main.source_authid,
              duplicate_authid := r.source_authid,
              canonical_name := main.full_name,
              duplicate_name := r.full_name }) := by
  have hne : uniqueMembers g ≠ [] := by
    intro h
    rw [h] at hu
    simp at hu
  obtain ⟨main, hmm, hmem, _, hbd, htie⟩ := mainMember_spec (uniqueMembers g) hne
  refine ⟨main, hmm, hmem, hbd, htie, ?_⟩
  unfold groupLinks
  rw [if_neg (by omega), if_neg (by omega), hmm]

/-- Witness for C8 at the concrete tied group: both members have usage count
5; source 202 (internal id 1) is selected canonical over source 201
(internal id 2). -/
theorem C8_canonical_selection_witness :
    ∃ main, mainMember (uniqueMembers tiedGroup) = some main ∧
      main ∈ uniqueMembers tiedGroup ∧
      (∀ r ∈ uniqueMembers tiedGroup, r.used_count ≤ main.used_count) ∧
      (∀ r ∈ uniqueMembers tiedGroup, r.used_count = main.used_count → main.id ≤ r.id) ∧
      groupLinks 1 9 tiedGroup =
        ((uniqueMembers tiedGroup).filter
            (fun r => r.source_authid ≠ main.source_authid)).map
          (fun r =>
            { server_id := 1, cluster_id := 9,
              canonical_authid := main.source_authid,
              duplicate_authid := r.source_authid,
              canonical_name := main.full_name,
              duplicate_name := r.full_name }) :=
  C8_canonical_selection tiedGroup 1 9 (by decide) (by decide)

/-! ### C1: `normalize_dates` -/

theorem isFourDigits_iff : ∀ l : List Char,
    isFourDigits l = true ↔ l.length = 4 ∧ ∀ c ∈ l, c.isDigit = true
  | [] => by simp [isFourDigits]
  | [a] => by simp [isFourDigits]
  | [a, b] => by simp [isFourDigits]
  | [a, b, c] => by simp [isFourDigits]
  | [a, b, c, d] => by
    simp only [isFourDigits, Bool.and_eq_true]
    constructor
    · rintro ⟨⟨⟨ha, hb⟩, hc⟩, hd⟩
      refine ⟨rfl, ?_⟩
      intro x hx
      rcases List.mem_cons.1 hx with rfl | hx
      · exact ha
      rcases List.mem_cons.1 hx with rfl | hx
      · exact hb
      rcases List.mem_cons.1 hx with rfl | hx
      · exact hc
      rcases List.mem_cons.1 hx with rfl | hx
      · exact hd
      · exact absurd hx (List.not_mem_nil _)
    · rintro ⟨-, h⟩
      exact ⟨⟨⟨h a (by simp), h b (by simp)⟩, h c (by simp)⟩, h d (by simp)⟩
  | a :: b :: c :: d :: e :: t => by
    simp only [isFourDigits, List.length_cons]
    constructor
    · intro h
      exact absurd h Bool.false_ne_true
    · rintro ⟨h, -⟩
      omega

theorem matchPlainOrRange_iff (l : List Char) :
    matchPlainOrRange l = true ↔ FourDigitYear l ∨ DateRange l := by
  unfold matchPlainOrRange
  constructor
  · intro h
    rw [Bool.or_eq_true] at h
    rcases h with h | h
    · exact Or.inl ((isFourDigits_iff l).1 h)
    · right
      simp only [Bool.and_eq_true, beq_iff_eq] at h
      obtain ⟨⟨⟨h9, h4⟩, hdash⟩, h5⟩ := h
      have hlt : 4 < l.length := by omega
      have hsplit := (List.take_append_drop 4 l).symm
      have hdrop : l.drop 4 = l[4] :: l.drop 5 := List.drop_eq_getElem_cons hlt
      have h4c : l[4] = '-' := by
        rw [List.get?_eq_getElem?, List.getElem?_eq_getElem hlt] at hdash
        exact Option.some.inj hdash
      refine ⟨l.take 4, l.drop 5, ?_, (isFourDigits_iff _).1 h4, (isFourDigits_iff _).1 h5⟩
      rw [← h4c, ← hdrop]
      exact hsplit
  · rintro (h | ⟨a, b, rfl, ha, hb⟩)
    · rw [Bool.or_eq_true]
      exact Or.inl ((isFourDigits_iff l).2 h)
    · rw [Bool.or_eq_true]
      refine Or.inr ?_
      simp only [Bool.and_eq_true, beq_iff_eq]
      have hta : (a ++ '-' :: b).take 4 = a := by
        rw [← ha.1]
        exact List.take_left a ('-' :: b)
      have hdb : (a ++ '-' :: b).drop 5 = b := by
        have he : a ++ '-' :: b = (a ++ ['-']) ++ b := by simp
        have hl : (a ++ ['-']).length = 5 := by simp [ha.1]
        rw [he, ← hl]
        exact List.drop_left _ _
      refine ⟨⟨⟨?_, ?_⟩, ?_⟩, ?_⟩
      · simp [ha.1, hb.1]
      · rw [hta]
        exact (isFourDigits_iff a).2 ha
      · rw [List.get?_eq_getElem?, show (4 : Nat) = a.length from ha.1.symm,
          List.getElem?_append_right (le_refl _)]
        simp
      · rw [hdb]
        exact (isFourDigits_iff b).2 hb

theorem matchOpenRange_iff (l : List Char) :
    matchOpenRange l = true ↔ FourDigitYear l ∨ DateOpen l := by
  unfold matchOpenRange
  constructor
  · intro h
    rw [Bool.or_eq_true] at h
    rcases h with h | h
    · exact Or.inl ((isFourDigits_iff l).1 h)
    · right
      simp only [Bool.and_eq_true, beq_iff_eq] at h
      obtain ⟨⟨h5, h4⟩, hdash⟩ := h
      have hlt : 4 < l.length := by omega
      have hdrop : l.drop 4 = l[4] :: l.drop 5 := List.drop_eq_getElem_cons hlt
      have h4c : l[4] = '-' := by
        rw [List.get?_eq_getElem?, List.getElem?_eq_getElem hlt] at hdash
        exact Option.some.inj hdash
      have hnil : l.drop 5 = [] := List.drop_eq_nil_of_le (by omega)
      refine ⟨l.take 4, ?_, (isFourDigits_iff _).1 h4⟩
      have hsplit := (List.take_append_drop 4 l).symm
      rw [hdrop, h4c, hnil] at hsplit
      exact hsplit
  · rintro (h | ⟨a, rfl, ha⟩)
    · rw [Bool.or_eq_true]
      exact Or.inl ((isFourDigits_iff l).2 h)
    · rw [Bool.or_eq_true]
      refine Or.inr ?_
      simp only [Bool.and_eq_true, beq_iff_eq]
      have hta : (a ++ ['-']).take 4 = a := by
        rw [← ha.1]
        exact List.take_left a ['-']
      refine ⟨⟨?_, ?_⟩, ?_⟩
      · simp [ha.1]
      · rw [hta]
        exact (isFourDigits_iff a).2 ha
      · rw [List.get?_eq_getElem?, show (4 : Nat) = a.length from ha.1.symm,
          List.getElem?_append_right (le_refl _)]
        simp

theorem matchUncertain_iff (l : List Char) :
    matchUncertain l = true ↔ DateUncertain l := by
  constructor
  · intro h
    simp only [matchUncertain, Bool.and_eq_true, beq_iff_eq] at h
    obtain ⟨⟨h5, h4⟩, hq⟩ := h
    have hlt : 4 < l.length := by omega
    have hdrop : l.drop 4 = l[4] :: l.drop 5 := List.drop_eq_getElem_cons hlt
    have h4c : l[4] = '?' := by
      rw [List.get?_eq_getElem?, List.getElem?_eq_getElem hlt] at hq
      exact Option.some.inj hq
    have hnil : l.drop 5 = [] := List.drop_eq_nil_of_le (by omega)
    refine ⟨l.take 4, ?_, (isFourDigits_iff _).1 h4⟩
    have hsplit := (List.take_append_drop 4 l).symm
    rw [hdrop, h4c, hnil] at hsplit
    exact hsplit
  · rintro ⟨a, rfl, ha⟩
    simp only [matchUncertain, Bool.and_eq_true, beq_iff_eq]
    have hta : (a ++ ['?']).take 4 = a := by
      rw [← ha.1]
      exact List.take_left a ['?']
    refine ⟨⟨?_, ?_⟩, ?_⟩
    · simp [ha.1]
    · rw [hta]
      exact (isFourDigits_iff a).2 ha
    · rw [List.get?_eq_getElem?, show (4 : Nat) = a.length from ha.1.symm,
        List.getElem?_append_right (le_refl _)]
      simp

theorem DateRange_length {l : List Char} (h : DateRange l) : l.length = 9 := by
  obtain ⟨a, b, rfl, ha, hb⟩ := h
  simp [ha.1, hb.1]

theorem DateOpen_spec {l : List Char} (h : DateOpen l) :
    l.length = 5 ∧ l.getLast? = some '-' := by
  obtain ⟨a, rfl, ha⟩ := h
  exact ⟨by simp [ha.1], List.getLast?_concat _⟩

theorem DateUncertain_spec {l : List Char} (h : DateUncertain l) :
    l.length = 5 ∧ l.getLast? = some '?' := by
  obtain ⟨a, rfl, ha⟩ := h
  exact ⟨by simp [ha.1], List.getLast?_concat _⟩

theorem strip_nil_all_space (l : List Char) (h : pyStripList l = []) :
    ∀ c ∈ l, pySpace c = true := by
  unfold pyStripList at h
  have hdw : ∀ c ∈ l.dropWhile pySpace, pySpace c = true := by
    intro c hc
    have h2 : l.dropWhile pySpace = [] ∨
        ∀ x ∈ l.dropWhile pySpace, pySpace x = true := by
      rcases List.rdropWhile_eq_nil_iff.1 h with h3
      · exact Or.inr h3
    rcases h2 with h2 | h2
    · rw [h2] at hc
      exact absurd hc (List.not_mem_nil _)
    · exact h2 c hc
  intro c hc
  rw [← List.takeWhile_append_dropWhile (p := pySpace) (l := l)] at hc
  rcases List.mem_append.1 hc with hc | hc
  · exact List.mem_takeWhile_imp hc
  · exact hdw c hc

theorem pySpace_not_dateKeep (c : Char) (h : pySpace c = true) : dateKeep c = false := by
  unfold pySpace at h
  have hm := of_decide_eq_true h
  fin_cases hm <;> decide

theorem guard_false_of_filter_ne (s : String) (h : s.data.filter dateKeep ≠ []) :
    pyStripList s.data ≠ [] := by
  intro hg
  obtain ⟨c, hc⟩ := List.exists_mem_of_ne_nil _ h
  obtain ⟨hcs, hck⟩ := List.mem_filter.1 hc
  have hns := pySpace_not_dateKeep c (strip_nil_all_space _ hg c hcs)
  rw [hns] at hck
  exact Bool.false_ne_true hck

/-- C1: counterexample. `normalize_dates("c.1900")` is `"1900"`, not the
empty string: the cleaning step first deletes every character other than
digits, `-`, `?`, leaving `"1900"`, which matches the allowed shape `YYYY`. -/
theorem C1_dates_counterexample :
    normalize_dates "c.1900" = "1900" ∧ "1900" ≠ "" := by
  refine ⟨by decide, by decide⟩

/-- C1 (amended): `normalize_dates` keeps only digits, `-`, `?`, and is then
a strict allow-list on the filtered text: it returns the filtered text
exactly when that text has shape `YYYY`, `YYYY-YYYY` or `YYYY-`, it strips
the `?` of shape `YYYY?`, and it returns the empty string for every other
filtered shape. In particular `normalize_dates("1900-1975") = "1900-1975"`
and `normalize_dates("1900?") = "1900"`, but `normalize_dates("c.1900") =
"1900"` (not `""`), the filter reducing `"c.1900"` to the valid `"1900"`. -/
theorem C1_normalize_dates_characterization (s : String) :
    (FourDigitYear (s.data.filter dateKeep) ∨ DateRange (s.data.filter dateKeep) ∨
        DateOpen (s.data.filter dateKeep) →
      normalize_dates s = ⟨s.data.filter dateKeep⟩) ∧
    (DateUncertain (s.data.filter dateKeep) →
      normalize_dates s = ⟨(s.data.filter dateKeep).dropLast⟩) ∧
    (¬(FourDigitYear (s.data.filter dateKeep) ∨ DateRange (s.data.filter dateKeep) ∨
        DateOpen (s.data.filter dateKeep) ∨ DateUncertain (s.data.filter dateKeep)) →
      normalize_dates s = "") := by
  refine ⟨?_, ?_, ?_⟩
  · intro h
    have hne : s.data.filter dateKeep ≠ [] := by
      intro he
      rcases h with h | h | h
      · have := h.1
        rw [he] at this
        simp at this
      · have := DateRange_length h
        rw [he] at this
        simp at this
      · have := (DateOpen_spec h).1
        rw [he] at this
        simp at this
    unfold normalize_dates
    rw [if_neg (guard_false_of_filter_ne s hne)]
    rcases h with h | h | h
    · rw [if_pos ((matchPlainOrRange_iff _).2 (Or.inl h))]
    · rw [if_pos ((matchPlainOrRange_iff _).2 (Or.inr h))]
    · have hp : matchPlainOrRange (s.data.filter dateKeep) = false := by
        rw [Bool.eq_false_iff]
        intro hx
        have h5 := (DateOpen_spec h).1
        rcases (matchPlainOrRange_iff _).1 hx with h4 | h9
        · have := h4.1
          omega
        · have := DateRange_length h9
          omega
      rw [if_neg (by simp [hp]), if_pos ((matchOpenRange_iff _).2 (Or.inr h))]
  · intro h
    obtain ⟨h5, hlast⟩ := DateUncertain_spec h
    have hne : s.data.filter dateKeep ≠ [] := by
      intro he
      rw [he] at h5
      simp at h5
    unfold normalize_dates
    rw [if_neg (guard_false_of_filter_ne s hne)]
    have hp : matchPlainOrRange (s.data.filter dateKeep) = false := by
      rw [Bool.eq_false_iff]
      intro hx
      rcases (matchPlainOrRange_iff _).1 hx with h4 | h9
      · have := h4.1
        omega
      · have := DateRange_length h9
        omega
    have ho : matchOpenRange (s.data.filter dateKeep) = false := by
      rw [Bool.eq_false_iff]
      intro hx
      rcases (matchOpenRange_iff _).1 hx with h4 | hopen
      · have := h4.1
        omega
      · have := (DateOpen_spec hopen).2
        rw [hlast] at this
        exact absurd (Option.some.inj this) (by decide)
    rw [if_neg (by simp [hp]), if_neg (by simp [ho]),
      if_pos ((matchUncertain_iff _).2 h)]
  · intro h
    push_neg at h
    obtain ⟨h1, h2, h3, h4⟩ := h
    unfold normalize_dates
    by_cases hg : pyStripList s.data = []
    · rw [if_pos hg]
    · rw [if_neg hg]
      have hp : matchPlainOrRange (s.data.filter dateKeep) = false := by
        rw [Bool.eq_false_iff]
        intro hx
        rcases (matchPlainOrRange_iff _).1 hx with hh | hh
        · exact h1 hh
        · exact h2 hh
      have ho : matchOpenRange (s.data.filter dateKeep) = false := by
        rw [Bool.eq_false_iff]
        intro hx
        rcases (matchOpenRange_iff _).1 hx with hh | hh
        · exact h1 hh
        · exact h3 hh
      have hu : matchUncertain (s.data.filter dateKeep) = false := by
        rw [Bool.eq_false_iff]
        intro hx
        exact h4 ((matchUncertain_iff _).1 hx)
      rw [if_neg (by simp [hp]), if_neg (by simp [ho]), if_neg (by simp [hu])]

/-- Witness for the amended C1 at `"c.1900"` (filter leaves a plain year)
and `"1900?"` (uncertain shape, `?` stripped). -/
theorem C1_normalize_dates_characterization_witness :
    normalize_dates "c.1900" = ⟨"c.1900".data.filter dateKeep⟩ ∧
    normalize_dates "1900?" = ⟨("1900?".data.filter dateKeep).dropLast⟩ :=
  ⟨(C1_normalize_dates_characterization "c.1900").1
      (Or.inl ⟨by decide, by decide⟩),
   (C1_normalize_dates_characterization "1900?").2.1
      ⟨['1', '9', '0', '0'], by decide, by decide, by decide⟩⟩

/-! ### C5: `clean_text` idempotence analysis -/

theorem superSub_cases (r : Char) :
    (superscriptTr r = r ∧ subscriptTr r = r) ∨
      subscriptTr (superscriptTr r) ∈ digitChars := by
  rcases lookup_cases superscriptTable r with h | ⟨v, hv, h⟩
  · have hsr : superscriptTr r = r := by
      unfold superscriptTr
      rw [h]
      rfl
    rcases lookup_cases subscriptTable r with h2 | ⟨w, hw, h2⟩
    · exact Or.inl ⟨hsr, by unfold subscriptTr; rw [h2]; rfl⟩
    · right
      rw [hsr]
      unfold subscriptTr
      rw [h2]
      exact (by decide : ∀ p ∈ subscriptTable, p.2 ∈ digitChars) (r, w) hw
  · right
    have hvd : v ∈ digitChars :=
      (by decide : ∀ p ∈ superscriptTable, p.2 ∈ digitChars) (r, v) hv
    have hsr : superscriptTr r = v := by
      unfold superscriptTr
      rw [h]
      rfl
    rw [hsr]
    have hnk : ∀ p ∈ subscriptTable, p.1 ≠ v := fun p hp =>
      (by decide : ∀ d ∈ digitChars, ∀ p ∈ subscriptTable, p.1 ≠ d) v hvd p hp
    have hsv : subscriptTr v = v := by
      unfold subscriptTr
      rw [lookup_none_keys subscriptTable v hnk]
      rfl
    rw [hsv]
    exact hvd

theorem charConv_cases (a : Char) :
    char_conversion a = [a] ∨ ∀ b ∈ char_conversion a, b ∈ convOutChars := by
  rcases lookup_cases charConvTable a with h | ⟨v, hv, h⟩
  · left
    unfold char_conversion
    rw [h]
    rfl
  · right
    intro b hb
    have hpa : char_conversion a = v := by
      unfold char_conversion
      rw [h]
      rfl
    rw [hpa] at hb
    exact (by decide : ∀ p ∈ charConvTable, ∀ b ∈ p.2, b ∈ convOutChars) (a, v) hv b hb

theorem punct_cases (a : Char) :
    punctuation_rules a = [a] ∨
      ∀ b ∈ punctuation_rules a,
        b = ' ' ∨ b ∈ punctOutChars ∨ (b = '/' ∧ a = Char.ofNat 0xf7) := by
  rcases lookup_cases punctTable a with h | ⟨v, hv, h⟩
  · left
    unfold punctuation_rules
    rw [h]
    rfl
  · right
    intro b hb
    have hpa : punctuation_rules a = v := by
      unfold punctuation_rules
      rw [h]
      rfl
    rw [hpa] at hb
    exact (by decide : ∀ p ∈ punctTable, ∀ b ∈ p.2,
      b = ' ' ∨ b ∈ punctOutChars ∨ (b = '/' ∧ p.1 = Char.ofNat 0xf7)) (a, v) hv b hb

theorem digit_ok :
    ∀ b ∈ digitChars, stableCh b ∧ isCtl b = false ∧ pySpace b = false := by decide

theorem convOut_ok :
    ∀ b ∈ convOutChars, stableCh b ∧ isCtl b = false ∧ pySpace b = false := by decide

theorem punctOut_ok :
    ∀ b ∈ punctOutChars, stableCh b ∧ isCtl b = false ∧ pySpace b = false := by decide

theorem charStages_passOK (l : List Char)
    (hd : Char.ofNat 0xf7 ∉ l) (hc : ∀ c ∈ l, isCtl c = false) :
    ∀ c ∈ charStages l, passOK c := by
  intro c hc5
  unfold charStages at hc5
  rcases List.mem_flatMap.1 hc5 with ⟨b, hb, hcb⟩
  rcases List.mem_filter.1 hb with ⟨hb3, hbdel⟩
  rcases List.mem_flatMap.1 hb3 with ⟨a, ha, hba⟩
  rcases List.mem_map.1 ha with ⟨a1, ha1, rfl⟩
  rcases List.mem_map.1 ha1 with ⟨r, hr, rfl⟩
  rcases superSub_cases r with ⟨hs1, hs2⟩ | hdig
  · -- the original character r passed the translate stages unchanged
    have har : subscriptTr (superscriptTr r) = r := by rw [hs1, hs2]
    rw [har] at hba
    rcases charConv_cases r with hcr | hout
    · rw [hcr] at hba
      rcases List.mem_singleton.1 hba with rfl
      rcases punct_cases b with hpb | hpout
      · rw [hpb] at hcb
        rcases List.mem_singleton.1 hcb with rfl
        by_cases hsp : pySpace c = true
        · exact Or.inl hsp
        · right
          refine ⟨⟨hs1, hs2, hcr, ?_, hpb⟩, hc c hr, by simpa using hsp⟩
          simpa using hbdel
      · rcases hpout c hcb with rfl | hpo | ⟨-, rfl⟩
        · exact Or.inl (by decide)
        · obtain ⟨hst, hctl, hsp⟩ := punctOut_ok c hpo
          exact Or.inr ⟨hst, hctl, hsp⟩
        · exact absurd hr hd
    · obtain ⟨hst, hctl, hsp⟩ := convOut_ok b (hout b hba)
      rcases punct_cases b with hpb | hpout
      · rw [hpb] at hcb
        rcases List.mem_singleton.1 hcb with rfl
        exact Or.inr ⟨hst, hctl, hsp⟩
      · rcases hpout c hcb with rfl | hpo | ⟨-, hbq⟩
        · exact Or.inl (by decide)
        · obtain ⟨hst2, hctl2, hsp2⟩ := punctOut_ok c hpo
          exact Or.inr ⟨hst2, hctl2, hsp2⟩
        · -- b would have to be the division sign, but it is a conversion output
          have : b ∈ convOutChars := hout b hba
          rw [hbq] at this
          exact absurd this (by decide)
  · -- the translate stages produced a digit
    obtain ⟨hst, hctl, hsp⟩ := digit_ok _ hdig
    have hst2 := hst
    obtain ⟨-, -, hcv, -, hpu⟩ := hst2
    rw [hcv] at hba
    rcases List.mem_singleton.1 hba with rfl
    rw [hpu] at hcb
    rcases List.mem_singleton.1 hcb with rfl
    exact Or.inr ⟨hst, hctl, hsp⟩

theorem collapseWs_mem : ∀ (z : List Char) (c : Char), c ∈ collapseWs z →
    c = ' ' ∨ (c ∈ z ∧ pySpace c = false)
  | [], c, h => absurd h (List.not_mem_nil _)
  | [d], c, h => by
    unfold collapseWs at h
    by_cases hs : pySpace d = true
    · rw [if_pos hs] at h
      rcases List.mem_singleton.1 h with rfl
      exact Or.inl rfl
    · rw [if_neg hs] at h
      rcases List.mem_singleton.1 h with rfl
      exact Or.inr ⟨List.mem_singleton_self _, by simpa using hs⟩
  | d :: e :: rest, c, h => by
    unfold collapseWs at h
    by_cases hs : pySpace d = true
    · rw [if_pos hs] at h
      by_cases hs2 : pySpace e = true
      · rw [if_pos hs2] at h
        rcases collapseWs_mem (e :: rest) c h with h1 | ⟨h1, h2⟩
        · exact Or.inl h1
        · exact Or.inr ⟨List.mem_cons_of_mem _ h1, h2⟩
      · rw [if_neg hs2] at h
        rcases List.mem_cons.1 h with rfl | h
        · exact Or.inl rfl
        · rcases collapseWs_mem (e :: rest) c h with h1 | ⟨h1, h2⟩
          · exact Or.inl h1
          · exact Or.inr ⟨List.mem_cons_of_mem _ h1, h2⟩
    · rw [if_neg hs] at h
      rcases List.mem_cons.1 h with rfl | h
      · exact Or.inr ⟨List.mem_cons_self _ _, by simpa using hs⟩
      · rcases collapseWs_mem (e :: rest) c h with h1 | ⟨h1, h2⟩
        · exact Or.inl h1
        · exact Or.inr ⟨List.mem_cons_of_mem _ h1, h2⟩

theorem space_ne_of_false {c : Char} (h : pySpace c = false) : c ≠ ' ' := by
  intro he
  rw [he] at h
  exact absurd h (by decide)

theorem collapseWs_head_nonspace (d : Char) (rest : List Char) (hd : pySpace d = false) :
    ∃ t, collapseWs (d :: rest) = d :: t := by
  cases rest with
  | nil => exact ⟨[], by unfold collapseWs; rw [if_neg (by simp [hd])]⟩
  | cons e r =>
    refine ⟨collapseWs (e :: r), ?_⟩
    show (if pySpace d = true then
        if pySpace e = true then collapseWs (e :: r) else ' ' :: collapseWs (e :: r)
      else d :: collapseWs (e :: r)) = d :: collapseWs (e :: r)
    rw [if_neg (by simp [hd])]

theorem collapseWs_noAdj : ∀ z : List Char, noAdjSpace (collapseWs z)
  | [] => List.chain'_nil
  | [d] => by
    unfold collapseWs noAdjSpace
    by_cases hs : pySpace d = true
    · rw [if_pos hs]
      exact List.chain'_singleton _
    · rw [if_neg hs]
      exact List.chain'_singleton _
  | d :: e :: rest => by
    unfold collapseWs
    by_cases hs : pySpace d = true
    · rw [if_pos hs]
      by_cases hs2 : pySpace e = true
      · rw [if_pos hs2]
        exact collapseWs_noAdj (e :: rest)
      · rw [if_neg hs2]
        obtain ⟨t, ht⟩ := collapseWs_head_nonspace e rest (by simpa using hs2)
        unfold noAdjSpace
        rw [ht]
        rw [List.chain'_cons]
        refine ⟨?_, ?_⟩
        · rintro ⟨-, he⟩
          exact space_ne_of_false (by simpa using hs2) he
        · have := collapseWs_noAdj (e :: rest)
          unfold noAdjSpace at this
          rw [ht] at this
          exact this
    · rw [if_neg hs]
      have hne : d ≠ ' ' := space_ne_of_false (by simpa using hs)
      unfold noAdjSpace
      rw [List.chain'_cons']
      refine ⟨fun x _ => ?_, collapseWs_noAdj (e :: rest)⟩
      rintro ⟨hd', -⟩
      exact hne hd'

theorem pyStripList_subset (l : List Char) : ∀ c ∈ pyStripList l, c ∈ l := by
  intro c hc
  unfold pyStripList at hc
  have hpre := List.rdropWhile_prefix pySpace (l.dropWhile pySpace)
  exact (List.dropWhile_suffix pySpace).subset (hpre.subset hc)

theorem pyStripList_noAdj {l : List Char} (h : noAdjSpace l) : noAdjSpace (pyStripList l) := by
  unfold noAdjSpace at h ⊢
  unfold pyStripList
  have hpre := List.rdropWhile_prefix pySpace (l.dropWhile pySpace)
  exact List.Chain'.prefix (h.suffix (List.dropWhile_suffix pySpace)) hpre

theorem pyStripList_head (l : List Char) :
    ∀ c, (pyStripList l).head? = some c → pySpace c = false := by
  intro c hc
  unfold pyStripList at hc
  obtain ⟨t2, ht2⟩ : ∃ t2,
      List.rdropWhile pySpace (l.dropWhile pySpace) = c :: t2 := by
    cases hs : List.rdropWhile pySpace (l.dropWhile pySpace) with
    | nil => rw [hs] at hc; simp at hc
    | cons x r =>
      rw [hs] at hc
      simp only [List.head?_cons, Option.some.injEq] at hc
      exact ⟨r, by rw [hc]⟩
  obtain ⟨u, hu⟩ := List.rdropWhile_prefix pySpace (l.dropWhile pySpace)
  rw [ht2] at hu
  exact dropWhile_head_false hu.symm

theorem pyStripList_last (l : List Char) :
    ∀ c, (pyStripList l).getLast? = some c → pySpace c = false := by
  intro c hc
  unfold pyStripList at hc
  have hne : List.rdropWhile pySpace (l.dropWhile pySpace) ≠ [] := by
    intro h
    rw [h] at hc
    simp at hc
  have hlast := List.rdropWhile_last_not pySpace (l.dropWhile pySpace) hne
  rw [List.getLast?_eq_getLast _ hne] at hc
  have heq := Option.some.inj hc
  rw [heq] at hlast
  simpa using hlast

theorem canon_of_passOK (z : List Char) (hz : ∀ c ∈ z, passOK c) :
    Canon (pyStripList (collapseWs z)) := by
  refine ⟨?_, pyStripList_noAdj (collapseWs_noAdj z), ?_, ?_⟩
  · intro c hc
    have hcz := pyStripList_subset _ c hc
    rcases collapseWs_mem z c hcz with rfl | ⟨hcz2, hsp⟩
    · exact Or.inl rfl
    · rcases hz c hcz2 with hsp2 | hok
      · rw [hsp] at hsp2
        exact absurd hsp2 (by simp)
      · exact Or.inr hok
  · intro hh
    exact absurd (pyStripList_head (collapseWs z) ' ' hh) (by decide)
  · intro hl
    exact absurd (pyStripList_last (collapseWs z) ' ' hl) (by decide)

theorem canon_filter_ctl {y : List Char} (h : ∀ c ∈ y, CharOK c) :
    y.filter (fun c => !(isCtl c)) = y :=
  List.filter_eq_self.2 fun c hc => by
    rcases h c hc with rfl | ⟨-, hctl, -⟩
    · decide
    · simp [hctl]

theorem cleanList_canon (l : List Char) (hd : Char.ofNat 0xf7 ∉ l)
    (hc : ∀ c ∈ l, isCtl c = false) : Canon (cleanList l) := by
  have hcanon := canon_of_passOK _ (charStages_passOK l hd hc)
  have hid : (pyStripList (collapseWs (charStages l))).filter (fun c => !(isCtl c)) =
      pyStripList (collapseWs (charStages l)) := canon_filter_ctl hcanon.1
  unfold cleanList
  rw [hid]
  exact hcanon

theorem charStages_id {y : List Char} (h : ∀ c ∈ y, CharOK c) : charStages y = y := by
  unfold charStages
  have hsup : y.map superscriptTr = y := map_eq_self_of _ _ fun c hc => by
    rcases h c hc with rfl | ⟨⟨h1, -, -, -, -⟩, -, -⟩
    · decide
    · exact h1
  rw [hsup]
  have hsub : y.map subscriptTr = y := map_eq_self_of _ _ fun c hc => by
    rcases h c hc with rfl | ⟨⟨-, h2, -, -, -⟩, -, -⟩
    · decide
    · exact h2
  rw [hsub]
  have hconv : y.flatMap char_conversion = y := flatMap_eq_self_of _ _ fun c hc => by
    rcases h c hc with rfl | ⟨⟨-, -, h3, -, -⟩, -, -⟩
    · decide
    · exact h3
  rw [hconv]
  have hdel : y.filter (fun c => !(chars_to_delete.contains c)) = y :=
    List.filter_eq_self.2 fun c hc => by
      rcases h c hc with rfl | ⟨⟨-, -, -, h4, -⟩, -, -⟩
      · decide
      · simpa using h4
  rw [hdel]
  exact flatMap_eq_self_of _ _ fun c hc => by
    rcases h c hc with rfl | ⟨⟨-, -, -, -, h5⟩, -, -⟩
    · decide
    · exact h5

theorem collapseWs_id : ∀ {y : List Char},
    (∀ c ∈ y, CharOK c) → noAdjSpace y → collapseWs y = y
  | [], _, _ => rfl
  | [c], h, _ => by
    unfold collapseWs
    rcases h c (List.mem_singleton_self _) with rfl | ⟨-, -, hsp⟩
    · rw [if_pos (by decide)]
    · rw [if_neg (by simp [hsp])]
  | c :: d :: rest, h, hadj => by
    unfold collapseWs
    have hadj' : noAdjSpace (d :: rest) := by
      unfold noAdjSpace at hadj ⊢
      exact (List.chain'_cons.1 hadj).2
    have htail : ∀ x ∈ d :: rest, CharOK x := fun x hx =>
      h x (List.mem_cons_of_mem _ hx)
    rcases h c (List.mem_cons_self _ _) with rfl | ⟨-, -, hsp⟩
    · rw [if_pos (by decide)]
      have hd' : d ≠ ' ' := by
        intro he
        unfold noAdjSpace at hadj
        exact (List.chain'_cons.1 hadj).1 ⟨rfl, he⟩
      have hdn : pySpace d = false := by
        rcases htail d (List.mem_cons_self _ _) with rfl | ⟨-, -, hsp2⟩
        · exact absurd rfl hd'
        · exact hsp2
      rw [if_neg (by simp [hdn])]
      rw [collapseWs_id htail hadj']
    · rw [if_neg (by simp [hsp])]
      rw [collapseWs_id htail hadj']

theorem pyStripList_id {y : List Char} (hh : y.head? ≠ some ' ')
    (hl : y.getLast? ≠ some ' ') (hok : ∀ c ∈ y, CharOK c) : pyStripList y = y := by
  unfold pyStripList
  have hdw : y.dropWhile pySpace = y := by
    cases y with
    | nil => rfl
    | cons a t =>
      have hna : pySpace a = false := by
        rcases hok a (List.mem_cons_self _ _) with rfl | ⟨-, -, hsp⟩
        · exact absurd (show (' ' :: t).head? = some ' ' from rfl) hh
        · exact hsp
      rw [List.dropWhile_cons, if_neg (by simp [hna])]
  rw [hdw]
  rw [List.rdropWhile_eq_self_iff.2]
  intro hne
  have hlast := List.getLast?_eq_getLast y hne
  rcases hok (y.getLast hne) (List.getLast_mem hne) with he | ⟨-, -, hsp⟩
  · exact absurd (by rw [hlast, he]) hl
  · simp [hsp]

/-- C5: counterexample. `clean_text` is not idempotent: on input `"÷"` the
punctuation table folds the division sign to `"/"`, but a second pass folds
`"/"` to a space which is then stripped, so the second output is empty. -/
theorem C5_clean_text_counterexample :
    clean_text ⟨[Char.ofNat 0xf7]⟩ = "/" ∧
    clean_text (clean_text ⟨[Char.ofNat 0xf7]⟩) = "" ∧
    clean_text (clean_text ⟨[Char.ofNat 0xf7]⟩) ≠ clean_text ⟨[Char.ofNat 0xf7]⟩ := by
  refine ⟨by decide, by decide, by decide⟩

/-- C5 (amended): `clean_text` is idempotent on every raw input containing
neither the division sign `÷` (U+00F7, whose image `/` is unstable under a
second pass) nor ASCII control characters (0x00–0x1F, 0x7F, which the final
removal step can leave as double or trailing spaces): for all such strings,
`clean_text (clean_text s) = clean_text s`. -/
theorem C5_clean_text_idempotent_amended (s : String)
    (hd : Char.ofNat 0xf7 ∉ s.data) (hc : ∀ c ∈ s.data, isCtl c = false) :
    clean_text (clean_text s) = clean_text s := by
  by_cases hg : pyStripList s.data = []
  · have h1 : clean_text s = "" := by
      unfold clean_text
      rw [if_pos hg]
    rw [h1]
    rfl
  · have h1 : clean_text s = ⟨cleanList s.data⟩ := by
      unfold clean_text
      rw [if_neg hg]
    rw [h1]
    obtain ⟨hok, hadj, hh, hl⟩ := cleanList_canon s.data hd hc
    by_cases hy : cleanList s.data = []
    · rw [hy]
      rfl
    · have hsy : pyStripList (cleanList s.data) = cleanList s.data :=
        pyStripList_id hh hl hok
      have hclean : cleanList (cleanList s.data) = cleanList s.data := by
        generalize hY : cleanList s.data = y at hok hadj hsy ⊢
        unfold cleanList
        rw [charStages_id hok, collapseWs_id hok hadj, hsy]
        exact canon_filter_ctl hok
      show clean_text ⟨cleanList s.data⟩ = ⟨cleanList s.data⟩
      unfold clean_text
      rw [if_neg (show pyStripList (String.mk (cleanList s.data)).data ≠ [] from by
        show pyStripList (cleanList s.data) ≠ []
        rw [hsy]
        exact hy)]
      exact congrArg String.mk hclean

/-- Witness for the amended C5 at a concrete noisy input without `÷` or
control characters. -/
theorem C5_clean_text_idempotent_amended_witness :
    clean_text (clean_text "  Jean--Paul   (fils)! ") =
      clean_text "  Jean--Paul   (fils)! " :=
  C5_clean_text_idempotent_amended _ (by decide) (by decide)

end Concat
